import Mathlib

/-!
Verification of the ThicketDB database engine (`thicket_db.py`): a shallow
embedding of its data model and operations, together with theorems settling
the specified properties.

Conventions of the embedding:
* Python dicts are association lists in insertion order; `dictInsert` models
  `d[k] = v` (update the first occurrence in place, else append) and
  `dictUpdate` models `d.update(m)`.
* JSON values (`Json`) carry integers for JSON numbers (the documents this
  program persists contain only integral numbers) and association lists for
  objects.  `dumps` models `json.dump(..., ensure_ascii=False, indent=4)`
  and `loads` models `json.loads` / `json.load` (returning `none` for a
  `JSONDecodeError`).
* Python exceptions are modelled by `Except PyErr`; an uncaught exception is
  an `.error` value.
-/

set_option maxHeartbeats 1000000

/-- Python exception kinds that the embedded code can raise. -/
inductive PyErr where
  | keyError
  | typeError
  | indexError
deriving DecidableEq, Repr

/-- First-occurrence lookup in an association list (Python `d[k]` /
`k in d` on a dict whose insertion kept keys unique). -/
def lookupA {α : Type} : List (String × α) → String → Option α
  | [], _ => none
  | (k', v) :: t, k => if k' = k then some v else lookupA t k

/-- Python `d[k] = v` on a dict: replace the value at the first occurrence of
`k` in place, else append `(k, v)`. -/
def dictInsert {α : Type} : List (String × α) → String → α → List (String × α)
  | [], k, v => [(k, v)]
  | (k', v') :: t, k, v =>
    if k' = k then (k, v) :: t else (k', v') :: dictInsert t k v

/-- Python `d.update(m)`: insert every binding of `m` into `d`, in order. -/
def dictUpdate {α : Type} (d m : List (String × α)) : List (String × α) :=
  m.foldl (fun acc kv => dictInsert acc kv.1 kv.2) d

theorem lookupA_dictInsert {α : Type} (d : List (String × α)) (k k' : String) (v : α) :
    lookupA (dictInsert d k v) k' = if k = k' then some v else lookupA d k' := by
  induction d with
  | nil => by_cases h : k = k' <;> simp [dictInsert, lookupA, h]
  | cons hd t ih =>
    obtain ⟨k₀, v₀⟩ := hd
    by_cases h0 : k₀ = k
    · by_cases h1 : k = k' <;> simp [dictInsert, lookupA, h0, h1]
    · by_cases h1 : k₀ = k' <;> by_cases h2 : k = k' <;>
        simp_all [dictInsert, lookupA, h0, h1, h2, ih]
theorem lookupA_dictInsert_self {α : Type} (d : List (String × α)) (k : String) (v : α) :
    lookupA (dictInsert d k v) k = some v := by
  simp [lookupA_dictInsert]

theorem dictInsert_length_of_absent {α : Type} (d : List (String × α)) (k : String) (v : α)
    (h : lookupA d k = none) : (dictInsert d k v).length = d.length + 1 := by
  induction d with
  | nil => simp [dictInsert]
  | cons hd t ih =>
    obtain ⟨k₀, v₀⟩ := hd
    by_cases h0 : k₀ = k
    · simp [lookupA, h0] at h
    · simp [lookupA, h0] at h
      simp [dictInsert, h0, ih h]

theorem dictInsert_length_of_present {α : Type} (d : List (String × α)) (k : String) (v : α)
    (h : (lookupA d k).isSome) : (dictInsert d k v).length = d.length := by
  induction d with
  | nil => simp [lookupA] at h
  | cons hd t ih =>
    obtain ⟨k₀, v₀⟩ := hd
    by_cases h0 : k₀ = k
    · simp [dictInsert, h0]
    · simp [lookupA, h0] at h
      simp [dictInsert, h0, ih h]

/-- JSON values, as Python's `json` module produces them for the documents of
this program: numbers are integers, objects are dicts in insertion order. -/
inductive Json where
  | null
  | bool (b : Bool)
  | num (n : Int)
  | str (s : String)
  | arr (elems : List Json)
  | obj (fields : List (String × Json))

/-- Python `j[k]` for a string subscript: a dict yields the entry or raises
`KeyError`; every other JSON value raises `TypeError`. -/
def jGet (j : Json) (k : String) : Except PyErr Json :=
  match j with
  | .obj fs =>
    match lookupA fs k with
    | some v => .ok v
    | none => .error .keyError
  | _ => .error .typeError

/-- Python `s.replace("_", "-")`: every underscore becomes a hyphen. -/
def pyReplaceUH (s : String) : String :=
  .mk (s.data.map fun c => if c = '_' then '-' else c)

/-- Python `s[:n]`: the first `n` characters (fewer if the string is short). -/
def pyTake (n : Nat) (s : String) : String :=
  .mk (s.data.take n)

/-- Python truthiness of an optional string: `None` and `""` are falsy. -/
def pyTruthy : Option String → Bool
  | none => false
  | some s => s ≠ ""

/-- The in-memory `ThicketDB` state used by the label/model read side:
`self._db["labels"]`, `self._db["models"]` and `self.locale`
(the latter already normalised by the constructor). -/
structure ThDB where
  labels : List (String × List (String × String))
  models : List (String × Json)
  locale : String

/-- `ThicketDB.get_label(key, locale)`: pick the effective locale
(`self.locale` when the argument is `None` or empty, else the argument with
underscores replaced by hyphens), then look `key` up in the label table —
a missing key means `KeyError`, caught and answered with `key` — then try the
exact locale, then its first two characters (`locale[:2]`), else `key`.
`effLocale` is the `locale` local variable the method computes first. -/
def effLocale (db : ThDB) (loc : Option String) : String :=
  if pyTruthy loc then pyReplaceUH (loc.getD "") else db.locale

/-- The lookup chain of `get_label` (see `effLocale` above). -/
def getLabel (db : ThDB) (key : String) (loc : Option String) : String :=
  match lookupA db.labels key with
  | none => key
  | some lm =>
    match lookupA lm (effLocale db loc) with
    | some v => v
    | none =>
      match lookupA lm (pyTake 2 (effLocale db loc)) with
      | some v => v
      | none => key

/-- The locale's primary subtag as the spec words it: the substring before the
first hyphen, or the whole string when there is no hyphen. -/
def primarySubtag (locale : String) : String :=
  .mk (locale.data.takeWhile fun c => c ≠ '-')

/-- Modelled from the spec: the label resolution algorithm as §4.1 words it,
with the fallback lookup key being the locale's *primary subtag*. -/
def specResolve (labels : List (String × List (String × String)))
    (key locale : String) : String :=
  let nloc := pyReplaceUH locale
  match lookupA labels key with
  | none => key
  | some lm =>
    match lookupA lm nloc with
    | some v => v
    | none =>
      match lookupA lm (primarySubtag nloc) with
      | some v => v
      | none => key

/-- The same resolution algorithm with the fallback key the source actually
uses: the first two characters of the normalised locale. -/
def specResolveTake2 (labels : List (String × List (String × String)))
    (key locale : String) : String :=
  let nloc := pyReplaceUH locale
  match lookupA labels key with
  | none => key
  | some lm =>
    match lookupA lm nloc with
    | some v => v
    | none =>
      match lookupA lm (pyTake 2 nloc) with
      | some v => v
      | none => key

/-- `ThicketDB.update_labels(labels)`: `self._db["labels"].update(labels)`,
a shallow per-key dict update. -/
def updateLabels (table incoming : List (String × List (String × String))) :
    List (String × List (String × String)) :=
  dictUpdate table incoming

/-- Modelled from the spec: the per-(key, locale) union that claim C3
describes — locale entries only in the existing table are preserved, locale
entries only in the incoming mapping are added, and common (key, locale)
pairs take the incoming value. -/
def specLabelUnion (table incoming : List (String × List (String × String))) :
    List (String × List (String × String)) :=
  incoming.foldl
    (fun acc kv =>
      match lookupA acc kv.1 with
      | some old => dictInsert acc kv.1 (dictUpdate old kv.2)
      | none => dictInsert acc kv.1 kv.2)
    table

/-- `num_jobs = os.cpu_count(); if not num_jobs: num_jobs = 4` — the worker
cap is the CPU count, or 4 when that is `None` (or 0). -/
def numJobs (cpuCount : Option Nat) : Nat :=
  match cpuCount with
  | none => 4
  | some n => if n = 0 then 4 else n

theorem numJobs_pos (c : Option Nat) : 1 ≤ numJobs c := by
  match c with
  | none => simp [numJobs]
  | some n =>
    by_cases h : n = 0
    · simp [numJobs, h]
    · simp only [numJobs, h, if_false]
      omega

/-- The opening brace character. -/
def lbr : Char := Char.ofNat 123

/-- The closing brace character. -/
def rbr : Char := Char.ofNat 125

/-- The decimal digit characters. -/
def digitCh : Nat → Char
  | 0 => '0' | 1 => '1' | 2 => '2' | 3 => '3' | 4 => '4'
  | 5 => '5' | 6 => '6' | 7 => '7' | 8 => '8' | _ => '9'

/-- Lowercase hexadecimal digit characters (as `"\u%04x" % n` prints them). -/
def hexCh : Nat → Char
  | 0 => '0' | 1 => '1' | 2 => '2' | 3 => '3' | 4 => '4'
  | 5 => '5' | 6 => '6' | 7 => '7' | 8 => '8' | 9 => '9'
  | 10 => 'a' | 11 => 'b' | 12 => 'c' | 13 => 'd' | 14 => 'e' | _ => 'f'

/-- Decimal digit sequence of a natural number, most significant first. -/
def natChars (n : Nat) : List Char :=
  if _h : n < 10 then [digitCh n]
  else
    natChars (n / 10) ++ [digitCh (n % 10)]
decreasing_by exact Nat.div_lt_self (by omega) (by omega)

/-- `repr` of a Python int: an optional minus sign and decimal digits. -/
def intChars (n : Int) : List Char :=
  if n < 0 then '-' :: natChars n.natAbs else natChars n.toNat

/-- How Python's `json` encoder (with `ensure_ascii=False`) writes one string
character: backslash and quote get a backslash escape, the five named control
characters their short escapes, the remaining control characters a `\u00xx`
escape, and every other character is written verbatim. -/
def escapeChar (c : Char) : List Char :=
  if c = '\\' then ['\\', '\\']
  else if c = '"' then ['\\', '"']
  else if c = '\x08' then ['\\', 'b']
  else if c = '\x0c' then ['\\', 'f']
  else if c = '\n' then ['\\', 'n']
  else if c = '\r' then ['\\', 'r']
  else if c = '\t' then ['\\', 't']
  else if c.toNat < 0x20 then
    ['\\', 'u', '0', '0', hexCh (c.toNat / 16), hexCh (c.toNat % 16)]
  else [c]

/-- Escape a whole character sequence. -/
def escapeList : List Char → List Char
  | [] => []
  | c :: t => escapeChar c ++ escapeList t

/-- A JSON string literal: quote, escaped body, quote. -/
def renderStr (s : String) : List Char :=
  '"' :: escapeList s.data ++ ['"']

/-- The indentation written before an element at nesting level `lvl` when
`indent=4`. -/
def pad (lvl : Nat) : List Char :=
  List.replicate (4 * lvl) ' '

mutual

/-- The text `json.dump(..., ensure_ascii=False, indent=4)` writes for a
value sitting at nesting level `lvl` (the level only affects the padding
inside containers). -/
def renderJ : Json → Nat → List Char
  | .null, _ => ['n', 'u', 'l', 'l']
  | .bool true, _ => ['t', 'r', 'u', 'e']
  | .bool false, _ => ['f', 'a', 'l', 's', 'e']
  | .num n, _ => intChars n
  | .str s, _ => renderStr s
  | .arr [], _ => ['[', ']']
  | .arr (x :: xs), lvl =>
    '[' :: '\n' :: pad (lvl + 1) ++ renderJ x (lvl + 1)
      ++ renderArrTail xs (lvl + 1) ++ '\n' :: pad lvl ++ [']']
  | .obj [], _ => [lbr, rbr]
  | .obj (f :: fs), lvl =>
    lbr :: '\n' :: pad (lvl + 1) ++ renderStr f.1 ++ ':' :: ' ' :: renderJ f.2 (lvl + 1)
      ++ renderObjTail fs (lvl + 1) ++ '\n' :: pad lvl ++ [rbr]

/-- The ",\n<pad>element" text for each further array element. -/
def renderArrTail : List Json → Nat → List Char
  | [], _ => []
  | x :: xs, lvl => ',' :: '\n' :: pad lvl ++ renderJ x lvl ++ renderArrTail xs lvl

/-- The ",\n<pad>key: value" text for each further object member. -/
def renderObjTail : List (String × Json) → Nat → List Char
  | [], _ => []
  | f :: fs, lvl =>
    ',' :: '\n' :: pad lvl ++ renderStr f.1 ++ ':' :: ' ' :: renderJ f.2 lvl
      ++ renderObjTail fs lvl

end

/-- `json.dump(v, f, ensure_ascii=False, indent=4)`: the serialised document. -/
def dumps (v : Json) : String :=
  .mk (renderJ v 0)

/-- The whitespace characters JSON allows between tokens. -/
def isJWs (c : Char) : Bool :=
  c = ' ' || c = '\t' || c = '\n' || c = '\r'

/-- Skip inter-token whitespace. -/
def skipWs : List Char → List Char
  | [] => []
  | c :: t => if isJWs c then skipWs t else c :: t

/-- Value of a hexadecimal digit character, if it is one. -/
def hexVal (c : Char) : Option Nat :=
  if '0' ≤ c ∧ c ≤ '9' then some (c.toNat - 48)
  else if 'a' ≤ c ∧ c ≤ 'f' then some (c.toNat - 87)
  else if 'A' ≤ c ∧ c ≤ 'F' then some (c.toNat - 55)
  else none

/-- Greedily consume decimal digits, accumulating their value. -/
def parseDigitsAcc (a : Nat) : List Char → Nat × List Char
  | [] => (a, [])
  | c :: t =>
    if c.isDigit then parseDigitsAcc (10 * a + (c.toNat - 48)) t else (a, c :: t)

/-- Parse a JSON number (this program's documents hold only integers). -/
def parseNum : List Char → Option (Json × List Char)
  | [] => none
  | c :: t =>
    if c = '-' then
      match t with
      | [] => none
      | c2 :: t2 =>
        if c2.isDigit then
          let p := parseDigitsAcc (c2.toNat - 48) t2
          some (.num (-(p.1 : Int)), p.2)
        else none
    else if c.isDigit then
      let p := parseDigitsAcc (c.toNat - 48) t
      some (.num (p.1 : Int), p.2)
    else none

/-- Decode one backslash escape: the escape letter `e` and the input after
it, yielding the decoded character and the remaining input.  `\uXXXX` escapes
are decoded for non-surrogate code points (the encoder only ever emits
`\u00xx`). -/
def parseEscape (e : Char) (t2 : List Char) : Option (Char × List Char) :=
  if e = '"' then some ('"', t2)
  else if e = '\\' then some ('\\', t2)
  else if e = '/' then some ('/', t2)
  else if e = 'b' then some ('\x08', t2)
  else if e = 'f' then some ('\x0c', t2)
  else if e = 'n' then some ('\n', t2)
  else if e = 'r' then some ('\r', t2)
  else if e = 't' then some ('\t', t2)
  else if e = 'u' then
    match t2 with
    | a :: b :: c' :: d :: t' =>
      match hexVal a, hexVal b, hexVal c', hexVal d with
      | some x1, some x2, some x3, some x4 =>
        let n := ((x1 * 16 + x2) * 16 + x3) * 16 + x4
        if n < 0xd800 then some (Char.ofNat n, t') else none
      | _, _, _, _ => none
    | _ => none
  else none

theorem parseEscape_length (e : Char) (t2 : List Char) (c : Char) (t' : List Char)
    (h : parseEscape e t2 = some (c, t')) : t'.length ≤ t2.length := by
  unfold parseEscape at h
  repeat' split at h
  all_goals simp_all
  all_goals omega

/-- Parse the body of a JSON string literal (after the opening quote),
accumulating decoded characters in reverse.  Control characters must be
escaped. -/
def parseStrBody (acc : List Char) (l : List Char) : Option (String × List Char) :=
  match l with
  | [] => none
  | c :: t =>
    if c = '"' then some (⟨acc.reverse⟩, t)
    else if c = '\\' then
      match t with
      | [] => none
      | e :: t2 =>
        match _hpe : parseEscape e t2 with
        | some (c', t') => parseStrBody (c' :: acc) t'
        | none => none
    else if 0x20 ≤ c.toNat then parseStrBody (c :: acc) t
    else none
termination_by l.length
decreasing_by
  all_goals simp_wf
  have := parseEscape_length _ _ _ _ _hpe
  omega

mutual

/-- Parse one JSON value; the input must start with the value's first
character (callers skip leading whitespace).  `fuel` bounds the nesting the
parser will enter; `loads` supplies more fuel than any input can need. -/
def parseVal : Nat → List Char → Option (Json × List Char)
  | 0, _ => none
  | Nat.succ f, l =>
    match l with
    | [] => none
    | c :: t =>
      if c = 'n' then
        match t with
        | 'u' :: 'l' :: 'l' :: t' => some (.null, t')
        | _ => none
      else if c = 't' then
        match t with
        | 'r' :: 'u' :: 'e' :: t' => some (.bool true, t')
        | _ => none
      else if c = 'f' then
        match t with
        | 'a' :: 'l' :: 's' :: 'e' :: t' => some (.bool false, t')
        | _ => none
      else if c = '"' then
        match parseStrBody [] t with
        | some (s, r) => some (.str s, r)
        | none => none
      else if c = '[' then
        match skipWs t with
        | ']' :: t' => some (.arr [], t')
        | t' =>
          match parseVal f t' with
          | some (x, r) => parseArrRest f (skipWs r) [x]
          | none => none
      else if c = lbr then
        match skipWs t with
        | [] => none
        | c' :: t'' =>
          if c' = rbr then some (.obj [], t'')
          else if c' = '"' then
            match parseStrBody [] t'' with
            | none => none
            | some (key, r) =>
              match skipWs r with
              | ':' :: r2 =>
                match parseVal f (skipWs r2) with
                | some (v, r3) => parseObjRest f (skipWs r3) [(key, v)]
                | none => none
              | _ => none
          else none
      else parseNum (c :: t)

/-- Parse the rest of an array, positioned (after whitespace) at `,` or `]`. -/
def parseArrRest : Nat → List Char → List Json → Option (Json × List Char)
  | 0, _, _ => none
  | Nat.succ f, l, acc =>
    match l with
    | ']' :: t => some (.arr acc.reverse, t)
    | ',' :: t =>
      match parseVal f (skipWs t) with
      | some (x, r) => parseArrRest f (skipWs r) (x :: acc)
      | none => none
    | _ => none

/-- Parse the rest of an object, positioned (after whitespace) at `,` or the
closing brace. -/
def parseObjRest : Nat → List Char → List (String × Json) → Option (Json × List Char)
  | 0, _, _ => none
  | Nat.succ f, l, acc =>
    match l with
    | c :: t =>
      if c = rbr then some (.obj acc.reverse, t)
      else if c = ',' then
        match skipWs t with
        | '"' :: t2 =>
          match parseStrBody [] t2 with
          | some (key, r) =>
            match skipWs r with
            | ':' :: r2 =>
              match parseVal f (skipWs r2) with
              | some (v, r3) => parseObjRest f (skipWs r3) ((key, v) :: acc)
              | none => none
            | _ => none
          | none => none
        | _ => none
      else none
    | [] => none

end

/-- `json.loads` / `json.load`: parse the whole input (whitespace around the
single top-level value allowed); `none` models a `JSONDecodeError`. -/
def loads (s : String) : Option Json :=
  let l := skipWs s.data
  match parseVal (l.length + 1) l with
  | some (j, r) => if (skipWs r).isEmpty then some j else none
  | none => none

theorem ofNat_toNat_small (c : Char) (h : c.toNat < 0xd800) : Char.ofNat c.toNat = c := by
  have hv : c.toNat.isValidChar := Or.inl h
  unfold Char.ofNat
  rw [dif_pos hv]
  apply Char.ext
  simp only [Char.ofNatAux]
  apply UInt32.ext
  show (UInt32.ofNat' c.toNat _).toNat = c.val.toNat
  simp only [Char.toNat, UInt32.toNat, UInt32.ofNat', BitVec.ofNat, Fin.ofNat'] at *
  simp at *

theorem digitCh_isDigit (d : Nat) (h : d < 10) : (digitCh d).isDigit = true := by
  interval_cases d <;> decide

theorem digitCh_toNat (d : Nat) (h : d < 10) : (digitCh d).toNat = 48 + d := by
  interval_cases d <;> decide

theorem hexCh_hexVal (n : Nat) (h : n < 16) : hexVal (hexCh n) = some n := by
  interval_cases n <;> decide

theorem isDigit_toNat (c : Char) (h : c.isDigit = true) : 48 ≤ c.toNat ∧ c.toNat ≤ 57 := by
  simp only [Char.isDigit, decide_eq_true_eq, Bool.and_eq_true] at h
  obtain ⟨h1, h2⟩ := h
  constructor
  · exact h1
  · exact h2

theorem isDigit_ne (c : Char) (h : c.isDigit = true) (c' : Char)
    (h' : c'.toNat < 48 ∨ 57 < c'.toNat) : c ≠ c' := by
  intro he
  obtain ⟨h1, h2⟩ := isDigit_toNat c h
  rw [he] at h1 h2
  rcases h' with h' | h' <;> omega

/-- No decimal digit at the head (what a number parse may stop before). -/
def noDigitHead : List Char → Bool
  | [] => true
  | c :: _ => !c.isDigit

theorem natChars_cons (n : Nat) :
    ∃ c t, natChars n = c :: t ∧ c.isDigit = true := by
  induction n using Nat.strong_induction_on with
  | _ n ih =>
    unfold natChars
    by_cases h : n < 10
    · rw [dif_pos h]
      exact ⟨digitCh n, [], rfl, digitCh_isDigit n h⟩
    · rw [dif_neg h]
      obtain ⟨c, t, hct, hdig⟩ := ih (n / 10) (Nat.div_lt_self (by omega) (by omega))
      exact ⟨c, t ++ [digitCh (n % 10)], by rw [hct]; rfl, hdig⟩

theorem parseDigitsAcc_natChars (n : Nat) : ∀ a (rest : List Char),
    parseDigitsAcc a (natChars n ++ rest) =
      parseDigitsAcc (a * 10 ^ (natChars n).length + n) rest := by
  induction n using Nat.strong_induction_on with
  | _ n ih =>
    intro a rest
    by_cases h : n < 10
    · rw [natChars, dif_pos h]
      simp only [List.length_cons, List.length_nil, List.cons_append, List.nil_append,
        parseDigitsAcc, digitCh_isDigit n h, if_pos]
      rw [digitCh_toNat n h]
      norm_num
      ring_nf
    · have hq : n / 10 < n := Nat.div_lt_self (by omega) (by omega)
      have hshape : natChars n = natChars (n / 10) ++ [digitCh (n % 10)] := by
        rw [natChars, dif_neg h]
      rw [hshape, List.append_assoc, List.singleton_append, ih (n / 10) hq]
      have hr : n % 10 < 10 := Nat.mod_lt _ (by omega)
      simp only [parseDigitsAcc, digitCh_isDigit _ hr, if_pos, List.length_append,
        List.length_cons, List.length_nil]
      rw [digitCh_toNat _ hr]
      congr 1
      have hpow : 10 ^ ((natChars (n / 10)).length + 1) =
          10 ^ (natChars (n / 10)).length * 10 := by ring
      rw [hpow]
      have := Nat.div_add_mod n 10
      ring_nf
      omega

theorem parseDigitsAcc_stop (a : Nat) (rest : List Char) (h : noDigitHead rest = true) :
    parseDigitsAcc a rest = (a, rest) := by
  match rest with
  | [] => rfl
  | c :: t =>
    simp only [noDigitHead, Bool.not_eq_true'] at h
    simp [parseDigitsAcc, h]

theorem parseDigitsAcc_nat (n : Nat) (rest : List Char) (h : noDigitHead rest = true) :
    parseDigitsAcc 0 (natChars n ++ rest) = (n, rest) := by
  rw [parseDigitsAcc_natChars, parseDigitsAcc_stop _ _ h]
  norm_num

theorem parseNum_intChars (n : Int) (rest : List Char) (h : noDigitHead rest = true) :
    parseNum (intChars n ++ rest) = some (.num n, rest) := by
  by_cases hn : n < 0
  · rw [intChars, if_pos hn]
    obtain ⟨c, t, hct, hdig⟩ := natChars_cons n.natAbs
    have hstep : parseDigitsAcc (c.toNat - 48) (t ++ rest) = (n.natAbs, rest) := by
      have h0 := parseDigitsAcc_nat n.natAbs rest h
      rw [hct] at h0
      simpa [parseDigitsAcc, hdig] using h0
    rw [List.cons_append, hct]
    simp only [parseNum, if_pos rfl, List.cons_append, hdig, if_pos]
    rw [hstep]
    have : -((n.natAbs : Nat) : Int) = n := by omega
    rw [this]
  · rw [intChars, if_neg hn]
    obtain ⟨c, t, hct, hdig⟩ := natChars_cons n.toNat
    have hstep : parseDigitsAcc (c.toNat - 48) (t ++ rest) = (n.toNat, rest) := by
      have h0 := parseDigitsAcc_nat n.toNat rest h
      rw [hct] at h0
      simpa [parseDigitsAcc, hdig] using h0
    have hcm : c ≠ '-' := isDigit_ne c hdig '-' (by left; decide)
    rw [hct]
    simp only [List.cons_append, parseNum, if_neg hcm, hdig, if_pos]
    rw [hstep]
    have : ((n.toNat : Nat) : Int) = n := by omega
    rw [this]


theorem parseStrBody_quote (acc t : List Char) :
    parseStrBody acc ('"' :: t) = some (String.mk acc.reverse, t) := by
  cases t with
  | nil => rw [parseStrBody.eq_2, if_pos rfl]
  | cons h t => rw [parseStrBody.eq_3, if_pos rfl]

theorem parseStrBody_esc (acc : List Char) (e : Char) (t2 : List Char) (c' : Char)
    (t' : List Char) (h : parseEscape e t2 = some (c', t')) :
    parseStrBody acc ('\\' :: e :: t2) = parseStrBody (c' :: acc) t' := by
  rw [parseStrBody.eq_3, if_neg (by decide : ¬('\\' : Char) = '"'), if_pos rfl]
  split
  · rename_i a b heq
    rw [h] at heq
    cases heq
    rfl
  · rename_i heq
    rw [h] at heq
    cases heq

theorem parseStrBody_raw (acc : List Char) (c : Char) (t : List Char)
    (h1 : ¬c = '"') (h2 : ¬c = '\\') (h3 : 0x20 ≤ c.toNat) :
    parseStrBody acc (c :: t) = parseStrBody (c :: acc) t := by
  cases t with
  | nil => rw [parseStrBody.eq_2, if_neg h1, if_neg h2, if_pos h3]
  | cons h t => rw [parseStrBody.eq_3, if_neg h1, if_neg h2, if_pos h3]

theorem parseEscape_unicode (c : Char) (h8 : c.toNat < 0x20) (rest : List Char) :
    parseEscape 'u' ('0' :: '0' :: hexCh (c.toNat / 16) :: hexCh (c.toNat % 16) :: rest) =
      some (c, rest) := by
  rw [parseEscape]
  rw [if_neg (by decide), if_neg (by decide), if_neg (by decide), if_neg (by decide),
    if_neg (by decide), if_neg (by decide), if_neg (by decide), if_neg (by decide),
    if_pos rfl]
  rw [show hexVal '0' = some 0 from rfl]
  rw [hexCh_hexVal (c.toNat / 16) (by omega), hexCh_hexVal (c.toNat % 16) (by omega)]
  simp only []
  have he : ((0 * 16 + 0) * 16 + c.toNat / 16) * 16 + c.toNat % 16 = c.toNat := by omega
  rw [he, if_pos (by omega : c.toNat < 0xd800), ofNat_toNat_small c (by omega)]

theorem parseStrBody_escape (cs : List Char) : ∀ (acc rest : List Char),
    parseStrBody acc (escapeList cs ++ '"' :: rest) =
      some (String.mk (acc.reverse ++ cs), rest) := by
  induction cs with
  | nil =>
    intro acc rest
    rw [escapeList, List.nil_append, parseStrBody_quote]
    simp
  | cons c cs ih =>
    intro acc rest
    rw [escapeList, List.append_assoc]
    by_cases h1 : c = '\\'
    · subst h1
      rw [show escapeChar '\\' = ['\\', '\\'] from rfl]
      rw [List.cons_append, List.cons_append, List.nil_append,
        parseStrBody_esc _ _ _ '\\' _ (by rfl), ih]
      simp
    · by_cases h2 : c = '"'
      · subst h2
        rw [show escapeChar '"' = ['\\', '"'] from rfl]
        rw [List.cons_append, List.cons_append, List.nil_append,
          parseStrBody_esc _ _ _ '"' _ (by rfl), ih]
        simp
      · by_cases h3 : c = '\x08'
        · subst h3
          rw [show escapeChar '\x08' = ['\\', 'b'] from rfl]
          rw [List.cons_append, List.cons_append, List.nil_append,
            parseStrBody_esc _ _ _ '\x08' _ (by rfl), ih]
          simp
        · by_cases h4 : c = '\x0c'
          · subst h4
            rw [show escapeChar '\x0c' = ['\\', 'f'] from rfl]
            rw [List.cons_append, List.cons_append, List.nil_append,
              parseStrBody_esc _ _ _ '\x0c' _ (by rfl), ih]
            simp
          · by_cases h5 : c = '\n'
            · subst h5
              rw [show escapeChar '\n' = ['\\', 'n'] from rfl]
              rw [List.cons_append, List.cons_append, List.nil_append,
                parseStrBody_esc _ _ _ '\n' _ (by rfl), ih]
              simp
            · by_cases h6 : c = '\r'
              · subst h6
                rw [show escapeChar '\r' = ['\\', 'r'] from rfl]
                rw [List.cons_append, List.cons_append, List.nil_append,
                  parseStrBody_esc _ _ _ '\r' _ (by rfl), ih]
                simp
              · by_cases h7 : c = '\t'
                · subst h7
                  rw [show escapeChar '\t' = ['\\', 't'] from rfl]
                  rw [List.cons_append, List.cons_append, List.nil_append,
                    parseStrBody_esc _ _ _ '\t' _ (by rfl), ih]
                  simp
                · by_cases h8 : c.toNat < 0x20
                  · have hesc : escapeChar c =
                        ['\\', 'u', '0', '0', hexCh (c.toNat / 16), hexCh (c.toNat % 16)] := by
                      rw [escapeChar, if_neg h1, if_neg h3, if_neg h4, if_neg h5, if_neg h6,
                        if_neg h7, if_pos h8]
                      rw [if_neg h2]
                    rw [hesc]
                    simp only [List.cons_append, List.nil_append]
                    rw [parseStrBody_esc _ _ _ c _ (parseEscape_unicode c h8 _), ih]
                    simp
                  · have hesc : escapeChar c = [c] := by
                      rw [escapeChar, if_neg h1, if_neg h3, if_neg h4, if_neg h5, if_neg h6,
                        if_neg h7, if_neg h8]
                      rw [if_neg h2]
                    rw [hesc, List.cons_append, List.nil_append,
                      parseStrBody_raw _ _ _ h2 h1 (by omega), ih]
                    simp

theorem parseStrBody_renderStr (s : String) (rest : List Char) :
    parseStrBody [] (escapeList s.data ++ '"' :: rest) = some (s, rest) := by
  rw [parseStrBody_escape]
  cases s
  rfl

theorem skipWs_ws (c : Char) (l : List Char) (h : isJWs c = true) :
    skipWs (c :: l) = skipWs l := by
  rw [skipWs, if_pos h]

theorem skipWs_not_ws (c : Char) (l : List Char) (h : isJWs c = false) :
    skipWs (c :: l) = c :: l := by
  rw [skipWs, if_neg (by simp [h])]

theorem skipWs_replicate (m : Nat) (l : List Char) :
    skipWs (List.replicate m ' ' ++ l) = skipWs l := by
  induction m with
  | zero => rw [List.replicate_zero, List.nil_append]
  | succ m ih => rw [List.replicate_succ, List.cons_append, skipWs_ws _ _ (by decide), ih]

theorem skipWs_pad (n : Nat) (l : List Char) : skipWs (pad n ++ l) = skipWs l := by
  rw [pad, skipWs_replicate]

theorem skipWs_nl_pad (n : Nat) (l : List Char) :
    skipWs ('\n' :: (pad n ++ l)) = skipWs l := by
  rw [skipWs_ws _ _ (by decide), skipWs_pad]

mutual

/-- Parser fuel needed for a value: one unit per value plus one per
container element. -/
def jsize : Json → Nat
  | .null => 1
  | .bool _ => 1
  | .num _ => 1
  | .str _ => 1
  | .arr xs => 1 + jsizeL xs
  | .obj fs => 1 + jsizeF fs

/-- Fuel needed for the elements of an array. -/
def jsizeL : List Json → Nat
  | [] => 0
  | x :: t => 1 + jsize x + jsizeL t

/-- Fuel needed for the members of an object. -/
def jsizeF : List (String × Json) → Nat
  | [] => 0
  | f :: t => 1 + jsize f.2 + jsizeF t

end

theorem jsize_pos (j : Json) : 1 ≤ jsize j := by
  cases j <;> simp [jsize]

/-- Structural strong induction over `Json`, working through the nested
lists. -/
def jsonStrongInd (P : Json → Prop)
    (h0 : P .null) (h1 : ∀ b, P (.bool b)) (h2 : ∀ n, P (.num n)) (h3 : ∀ s, P (.str s))
    (h4 : ∀ xs, (∀ x ∈ xs, P x) → P (.arr xs))
    (h5 : ∀ fs, (∀ kv ∈ fs, P kv.2) → P (.obj fs)) : ∀ j, P j
  | .null => h0
  | .bool b => h1 b
  | .num n => h2 n
  | .str s => h3 s
  | .arr xs => h4 xs (fun x _hx => jsonStrongInd P h0 h1 h2 h3 h4 h5 x)
  | .obj fs => h5 fs (fun kv _hkv => jsonStrongInd P h0 h1 h2 h3 h4 h5 kv.2)
termination_by j => sizeOf j
decreasing_by
  · have := List.sizeOf_lt_of_mem _hx
    simp only [Json.arr.sizeOf_spec]
    omega
  · have h := List.sizeOf_lt_of_mem _hkv
    obtain ⟨a, b⟩ := kv
    simp only [Json.obj.sizeOf_spec]
    simp only [Prod.mk.sizeOf_spec] at h
    omega

theorem isDigit_not_ws (c : Char) (h : c.isDigit = true) : isJWs c = false := by
  have h1 := isDigit_ne c h ' ' (by left; decide)
  have h2 := isDigit_ne c h '\t' (by left; decide)
  have h3 := isDigit_ne c h '\n' (by left; decide)
  have h4 := isDigit_ne c h '\r' (by left; decide)
  simp [isJWs, h1, h2, h3, h4]

theorem renderJ_head (j : Json) (lvl : Nat) :
    ∃ c t, renderJ j lvl = c :: t ∧ isJWs c = false ∧ c ≠ ']' := by
  cases j with
  | null => exact ⟨'n', _, rfl, by decide, by decide⟩
  | bool b => cases b with
    | true => exact ⟨'t', _, rfl, by decide, by decide⟩
    | false => exact ⟨'f', _, rfl, by decide, by decide⟩
  | num n =>
    rw [renderJ, intChars]
    by_cases hn : n < 0
    · rw [if_pos hn]
      exact ⟨'-', _, rfl, by decide, by decide⟩
    · rw [if_neg hn]
      obtain ⟨c, t, hct, hdig⟩ := natChars_cons n.toNat
      exact ⟨c, t, hct, isDigit_not_ws c hdig, isDigit_ne c hdig ']' (by right; decide)⟩
  | str s => exact ⟨'"', _, rfl, by decide, by decide⟩
  | arr xs =>
    cases xs with
    | nil => exact ⟨'[', _, rfl, by decide, by decide⟩
    | cons x t => exact ⟨'[', _, rfl, by decide, by decide⟩
  | obj fs =>
    cases fs with
    | nil => exact ⟨lbr, _, rfl, by decide, by decide⟩
    | cons f t => exact ⟨lbr, _, rfl, by decide, by decide⟩

theorem noDigitHead_arrTail (xs : List Json) (lvl : Nat) (l : List Char) :
    noDigitHead (renderArrTail xs lvl ++ '\n' :: l) = true := by
  cases xs with
  | nil => rw [renderArrTail]; rfl
  | cons y ys => rw [renderArrTail]; rfl

theorem noDigitHead_objTail (fs : List (String × Json)) (lvl : Nat) (l : List Char) :
    noDigitHead (renderObjTail fs lvl ++ '\n' :: l) = true := by
  cases fs with
  | nil => rw [renderObjTail]; rfl
  | cons g gs => rw [renderObjTail]; rfl

theorem renderArrTail_len (xs : List Json) (lvl : Nat)
    (H : ∀ x ∈ xs, ∀ l, jsize x ≤ (renderJ x l).length) :
    jsizeL xs ≤ (renderArrTail xs lvl).length := by
  induction xs with
  | nil => simp [jsizeL, renderArrTail]
  | cons y ys ih =>
    rw [jsizeL, renderArrTail]
    have h1 := H y (by simp) lvl
    have h2 := ih (fun x hx l => H x (by simp [hx]) l)
    simp only [List.length_cons, List.length_append]
    omega

theorem renderObjTail_len (fs : List (String × Json)) (lvl : Nat)
    (H : ∀ kv ∈ fs, ∀ l, jsize kv.2 ≤ (renderJ kv.2 l).length) :
    jsizeF fs ≤ (renderObjTail fs lvl).length := by
  induction fs with
  | nil => simp [jsizeF, renderObjTail]
  | cons g gs ih =>
    rw [jsizeF, renderObjTail]
    have h1 := H g (by simp) lvl
    have h2 := ih (fun kv hkv l => H kv (by simp [hkv]) l)
    simp only [List.length_cons, List.length_append]
    omega

theorem jsize_le_renderLen (j : Json) : ∀ lvl, jsize j ≤ (renderJ j lvl).length := by
  induction j using jsonStrongInd with
  | h0 => intro lvl; simp [jsize, renderJ]
  | h1 b => intro lvl; cases b <;> simp [jsize, renderJ]
  | h2 n =>
    intro lvl
    rw [renderJ, jsize, intChars]
    by_cases hn : n < 0
    · rw [if_pos hn]
      simp
    · rw [if_neg hn]
      obtain ⟨c, t, hct, _⟩ := natChars_cons n.toNat
      rw [hct]
      simp
  | h3 s => intro lvl; simp [jsize, renderJ, renderStr]
  | h4 xs H =>
    intro lvl
    cases xs with
    | nil => simp [jsize, jsizeL, renderJ]
    | cons x t =>
      rw [jsize, jsizeL, renderJ]
      have h1 := H x (by simp) (lvl + 1)
      have h2 := renderArrTail_len t (lvl + 1) (fun y hy l => H y (by simp [hy]) l)
      simp only [List.length_cons, List.length_append]
      omega
  | h5 fs H =>
    intro lvl
    cases fs with
    | nil => simp [jsize, jsizeF, renderJ]
    | cons g t =>
      rw [jsize, jsizeF, renderJ]
      have h1 := H g (by simp) (lvl + 1)
      have h2 := renderObjTail_len t (lvl + 1) (fun kv hkv l => H kv (by simp [hkv]) l)
      simp only [List.length_cons, List.length_append]
      omega

/-- Parser/printer agreement for one value with `fuel` at least its size. -/
def RtA (fuel : Nat) : Prop := ∀ j lvl rest, jsize j ≤ fuel → noDigitHead rest = true →
  parseVal fuel (renderJ j lvl ++ rest) = some (j, rest)

/-- Parser/printer agreement for an array tail. -/
def RtB (fuel : Nat) : Prop := ∀ xs lvl rest acc, jsizeL xs + 1 ≤ fuel → noDigitHead rest = true →
  parseArrRest fuel (skipWs (renderArrTail xs (lvl + 1) ++ '\n' :: (pad lvl ++ ']' :: rest))) acc
    = some (.arr (acc.reverse ++ xs), rest)

/-- Parser/printer agreement for an object tail. -/
def RtC (fuel : Nat) : Prop := ∀ fs lvl rest acc, jsizeF fs + 1 ≤ fuel → noDigitHead rest = true →
  parseObjRest fuel (skipWs (renderObjTail fs (lvl + 1) ++ '\n' :: (pad lvl ++ rbr :: rest))) acc
    = some (.obj (acc.reverse ++ fs), rest)

theorem roundtripAux : ∀ fuel, RtA fuel ∧ RtB fuel ∧ RtC fuel := by
  intro fuel
  induction fuel with
  | zero =>
    refine ⟨?_, ?_, ?_⟩
    · intro j lvl rest hsz hnd
      exact absurd hsz (by have := jsize_pos j; omega)
    · intro xs lvl rest acc h hnd
      exact absurd h (by omega)
    · intro fs lvl rest acc h hnd
      exact absurd h (by omega)
  | succ f ih =>
    obtain ⟨A_f, B_f, C_f⟩ := ih
    refine ⟨?_, ?_, ?_⟩
    · intro j lvl rest hsz hnd
      cases j with
      | null => simp [renderJ, parseVal]
      | bool b => cases b <;> simp [renderJ, parseVal]
      | str s =>
        rw [renderJ, renderStr]
        simp only [List.cons_append, List.append_assoc, List.nil_append]
        simp only [parseVal]
        rw [if_neg (by decide), if_neg (by decide), if_neg (by decide)]
        simp only [if_true, parseStrBody_renderStr]
      | num n =>
        rw [renderJ]
        have hhead : ∃ c t, intChars n ++ rest = c :: t ∧ (c = '-' ∨ c.isDigit = true) := by
          rw [intChars]
          by_cases hn : n < 0
          · rw [if_pos hn]
            exact ⟨'-', _, rfl, Or.inl rfl⟩
          · rw [if_neg hn]
            obtain ⟨c, t, hct, hdig⟩ := natChars_cons n.toNat
            rw [hct]
            exact ⟨c, t ++ rest, rfl, Or.inr hdig⟩
        obtain ⟨c, t, hct, hc⟩ := hhead
        rw [hct]
        simp only [parseVal]
        have hne : ∀ c' : Char, c'.toNat ≠ 45 → (c'.toNat < 48 ∨ 57 < c'.toNat) → ¬(c = c') := by
          intro c' h45 hrange
          rcases hc with hc | hc
          · subst hc
            intro he
            have : c'.toNat = 45 := by rw [← he]; rfl
            exact h45 this
          · exact isDigit_ne c hc c' hrange
        rw [if_neg (hne 'n' (by decide) (by decide)), if_neg (hne 't' (by decide) (by decide)),
          if_neg (hne 'f' (by decide) (by decide)), if_neg (hne '"' (by decide) (by decide)),
          if_neg (hne '[' (by decide) (by decide)), if_neg (hne lbr (by decide) (by decide))]
        rw [← hct, parseNum_intChars n rest hnd]
      | arr xs =>
        cases xs with
        | nil => simp [renderJ, parseVal, skipWs, isJWs]
        | cons x t =>
          have hx : jsize x ≤ f := by
            simp only [jsize, jsizeL] at hsz
            have := jsize_pos x
            omega
          have ht : jsizeL t + 1 ≤ f := by
            simp only [jsize, jsizeL] at hsz
            have := jsize_pos x
            omega
          rw [renderJ]
          simp only [List.cons_append, List.append_assoc, List.nil_append]
          simp only [parseVal]
          rw [if_neg (by decide), if_neg (by decide), if_neg (by decide), if_neg (by decide)]
          simp only [if_true]
          rw [skipWs_nl_pad]
          obtain ⟨c0, t0, hct, hws, hbr⟩ := renderJ_head x (lvl + 1)
          have hskip : skipWs (renderJ x (lvl + 1) ++
              (renderArrTail t (lvl + 1) ++ '\n' :: (pad lvl ++ ']' :: rest)))
              = renderJ x (lvl + 1) ++
                (renderArrTail t (lvl + 1) ++ '\n' :: (pad lvl ++ ']' :: rest)) := by
            rw [hct, List.cons_append, skipWs_not_ws _ _ hws]
          rw [hskip, hct, List.cons_append]
          split
          · rename_i heq
            exact absurd (List.cons.inj heq).1 hbr
          · rw [← List.cons_append, ← hct]
            rw [A_f x (lvl + 1) _ hx (noDigitHead_arrTail t (lvl + 1) _)]
            simp only [B_f t lvl rest [x] ht hnd]
            simp
      | obj fs =>
        cases fs with
        | nil => simp [renderJ, parseVal, skipWs, isJWs, lbr, rbr]
        | cons g t =>
          obtain ⟨k, v⟩ := g
          have hv : jsize v ≤ f := by
            simp only [jsize, jsizeF] at hsz
            have := jsize_pos v
            omega
          have ht : jsizeF t + 1 ≤ f := by
            simp only [jsize, jsizeF] at hsz
            have := jsize_pos v
            omega
          rw [renderJ, renderStr]
          simp only [List.cons_append, List.append_assoc, List.nil_append]
          simp only [parseVal]
          rw [if_neg (by decide), if_neg (by decide), if_neg (by decide), if_neg (by decide),
            if_neg (by decide)]
          simp only [if_true]
          rw [skipWs_nl_pad, skipWs_not_ws _ _ (by decide)]
          have hq := eq_false (show ¬('"' = rbr) from by decide)
          simp only [hq, if_false, if_pos (rfl : ('"' : Char) = '"'), parseStrBody_renderStr]
          show (match parseVal f (skipWs (' ' :: (renderJ v (lvl + 1) ++
              (renderObjTail t (lvl + 1) ++ '\n' :: (pad lvl ++ rbr :: rest))))) with
            | some (v, r3) => parseObjRest f (skipWs r3) [(k, v)]
            | none => none) = _
          rw [skipWs_ws _ _ (by decide)]
          obtain ⟨c0, t0, hct, hws, hbr⟩ := renderJ_head v (lvl + 1)
          have hskip : skipWs (renderJ v (lvl + 1) ++
              (renderObjTail t (lvl + 1) ++ '\n' :: (pad lvl ++ rbr :: rest)))
              = renderJ v (lvl + 1) ++
                (renderObjTail t (lvl + 1) ++ '\n' :: (pad lvl ++ rbr :: rest)) := by
            rw [hct, List.cons_append, skipWs_not_ws _ _ hws]
          rw [hskip]
          rw [A_f v (lvl + 1) _ hv (noDigitHead_objTail t (lvl + 1) _)]
          simp only [C_f t lvl rest [(k, v)] ht hnd]
          simp
    · intro xs lvl rest acc h hnd
      cases xs with
      | nil =>
        rw [renderArrTail, List.nil_append, skipWs_nl_pad, skipWs_not_ws _ _ (by decide)]
        simp [parseArrRest]
      | cons y ys =>
        rw [renderArrTail]
        simp only [List.cons_append, List.append_assoc]
        rw [skipWs_not_ws _ _ (by decide)]
        simp only [parseArrRest]
        rw [skipWs_nl_pad]
        have hy : jsize y ≤ f := by
          have := jsize_pos y
          simp only [jsizeL] at h
          omega
        have hys : jsizeL ys + 1 ≤ f := by
          have := jsize_pos y
          simp only [jsizeL] at h
          omega
        obtain ⟨c0, t0, hct, hws, hbr⟩ := renderJ_head y (lvl + 1)
        rw [show skipWs (renderJ y (lvl + 1) ++
            (renderArrTail ys (lvl + 1) ++ '\n' :: (pad lvl ++ ']' :: rest)))
            = renderJ y (lvl + 1) ++
              (renderArrTail ys (lvl + 1) ++ '\n' :: (pad lvl ++ ']' :: rest)) by
          rw [hct, List.cons_append, skipWs_not_ws _ _ hws]]
        rw [A_f y (lvl + 1) _ hy (noDigitHead_arrTail ys (lvl + 1) _)]
        simp only [B_f ys lvl rest (y :: acc) hys hnd]
        simp
    · intro fs lvl rest acc h hnd
      cases fs with
      | nil =>
        rw [renderObjTail, List.nil_append, skipWs_nl_pad, skipWs_not_ws _ _ (by decide)]
        simp [parseObjRest]
      | cons g gs =>
        obtain ⟨k, v⟩ := g
        have hv : jsize v ≤ f := by
          have := jsize_pos v
          simp only [jsizeF] at h
          omega
        have hgs : jsizeF gs + 1 ≤ f := by
          have := jsize_pos v
          simp only [jsizeF] at h
          omega
        rw [renderObjTail, renderStr]
        simp only [List.cons_append, List.append_assoc, List.nil_append]
        rw [skipWs_not_ws _ _ (by decide)]
        simp only [parseObjRest, if_true]
        rw [skipWs_nl_pad, skipWs_not_ws _ _ (by decide)]
        simp only [parseStrBody_renderStr]
        have hcomma := eq_false (show ¬(',' = rbr) from by decide)
        simp only [hcomma, if_false]
        show (match parseVal f (skipWs (' ' :: (renderJ v (lvl + 1) ++
            (renderObjTail gs (lvl + 1) ++ '\n' :: (pad lvl ++ rbr :: rest))))) with
          | some (v, r3) => parseObjRest f (skipWs r3) ((k, v) :: acc)
          | none => none) = _
        rw [skipWs_ws _ _ (by decide)]
        obtain ⟨c0, t0, hct, hws, hbr⟩ := renderJ_head v (lvl + 1)
        have hskip : skipWs (renderJ v (lvl + 1) ++
            (renderObjTail gs (lvl + 1) ++ '\n' :: (pad lvl ++ rbr :: rest)))
            = renderJ v (lvl + 1) ++
              (renderObjTail gs (lvl + 1) ++ '\n' :: (pad lvl ++ rbr :: rest)) := by
          rw [hct, List.cons_append, skipWs_not_ws _ _ hws]
        simp only [hskip]
        simp only [A_f v (lvl + 1) _ hv (noDigitHead_objTail gs (lvl + 1) _)]
        simp only [C_f gs lvl rest ((k, v) :: acc) hgs hnd]
        simp

/-- `json.loads` inverts `json.dump(..., ensure_ascii=False, indent=4)`:
the persisted text parses back to exactly the document that was saved. -/
theorem loads_dumps (j : Json) : loads (dumps j) = some j := by
  rw [loads, dumps]
  obtain ⟨c0, t0, hct, hws, _⟩ := renderJ_head j 0
  have hdata : (String.mk (renderJ j 0)).data = renderJ j 0 := rfl
  rw [hdata]
  have hskip : skipWs (renderJ j 0) = renderJ j 0 := by
    rw [hct, skipWs_not_ws _ _ hws]
  rw [hskip]
  have hfuel : jsize j ≤ (renderJ j 0).length + 1 := by
    have := jsize_le_renderLen j 0
    omega
  have hmain := (roundtripAux ((renderJ j 0).length + 1)).1 j 0 [] hfuel rfl
  rw [List.append_nil] at hmain
  rw [hmain]
  rfl

/-- The implementation's current schema version (`SCHEMA_VERSION = 2`). -/
def SCHEMA_VERSION : Int := 2

/-- The Laubwerk SDK version values `initialize` copies from the external
`laubwerk` module. -/
structure SdkInfo where
  version : String
  major : Int
  minor : Int
  micro : Int

/-- `ThicketDB.initialize()`: the fresh document — info block (SDK version
fields and the current schema version), empty label table, empty model
table. -/
def initDoc (sdk : SdkInfo) : Json :=
  .obj [("info", .obj [("sdk_version", .str sdk.version), ("sdk_major", .num sdk.major),
          ("sdk_minor", .num sdk.minor), ("sdk_micro", .num sdk.micro),
          ("schema_version", .num SCHEMA_VERSION)]),
        ("labels", .obj []),
        ("models", .obj [])]

/-- `ThicketDB.save()`: `json.dump(self._db, f, ensure_ascii=False, indent=4)` —
the text written to the database file. -/
def saveDB (doc : Json) : String :=
  dumps doc

/-- Python `sv < SCHEMA_VERSION` for the loaded `schema_version` value:
ints compare numerically, bools count as 0/1, anything else raises
`TypeError`. -/
def svLtCurrent (sv : Json) : Except PyErr Bool :=
  match sv with
  | .num n => .ok (decide (n < SCHEMA_VERSION))
  | .bool b => .ok (decide ((if b then (1 : Int) else 0) < SCHEMA_VERSION))
  | _ => .error .typeError

/-- The observable outcome of `ThicketDB.__init__` (the open operation). -/
inductive OpenResult where
  | ok (doc : Json)        -- `self._db` holds `doc`, constructor returned
  | okUnset                -- constructor returned but `self._db` was never set
  | errNotFound            -- `FileNotFoundError` re-raised
  | errOldSchema           -- `ThicketDBOldSchemaError` raised
  | crash (e : PyErr)      -- some other uncaught exception

/-- `ThicketDB.__init__(db_filename, ..., create)`: `contents` is what the
file holds (`none` when it does not exist).  A missing file is created when
`create` is set, else `FileNotFoundError` is raised; unparseable JSON is
logged and *swallowed*, leaving `self._db` unset; a parsed document whose
`info.schema_version` is below `SCHEMA_VERSION` raises
`ThicketDBOldSchemaError` (uncaught by the constructor). -/
def openDB (contents : Option String) (create : Bool) (sdk : SdkInfo) : OpenResult :=
  match contents with
  | none => if create then .ok (initDoc sdk) else .errNotFound
  | some s =>
    match loads s with
    | none => .okUnset
    | some doc =>
      match jGet doc "info" with
      | .error e => .crash e
      | .ok info =>
        match jGet info "schema_version" with
        | .error e => .crash e
        | .ok sv =>
          match svLtCurrent sv with
          | .error e => .crash e
          | .ok true => .errOldSchema
          | .ok false => .ok doc

/-- An observable step of the build scheduler: handing a file to a worker
subprocess (`Popen`), or waiting for the oldest worker and taking its
result (`popleft` + `communicate`). -/
inductive BEvent where
  | launch (id : Nat) (file : String)
  | collect (id : Nat) (file : String)

/-- The ids of the launch events, in order. -/
def launchIds (l : List BEvent) : List Nat :=
  l.filterMap fun e => match e with | .launch i _ => some i | _ => none

/-- The files of the launch events, in order. -/
def launchFiles (l : List BEvent) : List String :=
  l.filterMap fun e => match e with | .launch _ f => some f | _ => none

/-- The ids of the collect events, in order. -/
def collectIds (l : List BEvent) : List Nat :=
  l.filterMap fun e => match e with | .collect i _ => some i | _ => none

/-- +1 for a launch, −1 for a collect: the running in-flight count. -/
def evDelta : BEvent → Int
  | .launch _ _ => 1
  | .collect _ _ => -1

/-- Net change of the in-flight job count over a trace. -/
def net (l : List BEvent) : Int :=
  (l.map evDelta).sum

/-- Python `list.pop()`: remove and return the *last* element. -/
def pyPop {α : Type} : List α → Option (α × List α)
  | [] => none
  | x :: xs =>
    match pyPop xs with
    | some (y, rest) => some (y, x :: rest)
    | none => some (x, [])

theorem pyPop_append {α : Type} (xs : List α) (x : α) : pyPop (xs ++ [x]) = some (x, xs) := by
  induction xs with
  | nil => rfl
  | cons a as ih => simp [pyPop, ih]

theorem pyPop_none {α : Type} (l : List α) : pyPop l = none ↔ l = [] := by
  cases l with
  | nil => simp [pyPop]
  | cons x xs =>
    simp only [pyPop]
    constructor
    · intro h
      cases hx : pyPop xs with
      | none => rw [hx] at h; cases h
      | some p => rw [hx] at h; cases h
    · intro h
      cases h

theorem pyPop_length {α : Type} : ∀ (l : List α) (y : α) (rest : List α),
    pyPop l = some (y, rest) → rest.length + 1 = l.length := by
  intro l
  induction l with
  | nil => intro y rest h; cases h
  | cons x xs ih =>
    intro y rest h
    simp only [pyPop] at h
    cases hx : pyPop xs with
    | some p =>
      obtain ⟨y2, rest2⟩ := p
      rw [hx] at h
      simp only [Option.some.injEq, Prod.mk.injEq] at h
      obtain ⟨h1, h2⟩ := h
      subst h2
      have := ih y2 rest2 hx
      simp only [List.length_cons]
      omega
    | none =>
      rw [hx] at h
      simp only [Option.some.injEq, Prod.mk.injEq] at h
      obtain ⟨h1, h2⟩ := h
      subst h2
      have : xs = [] := (pyPop_none xs).mp hx
      subst this
      rfl

/-- The state after the inner top-up loop, plus the launch events it made. -/
structure TopUpR where
  pending : List String
  jobs : List (Nat × String)
  nextId : Nat
  evs : List BEvent

/-- The inner `while len(jobs) < num_jobs and len(model_files) > 0` loop:
pop the *last* pending file, spawn a worker for it, append it on the right
of the jobs deque.  `fuel` is the pending-list length at entry (the loop
pops exactly one file per iteration). -/
def topUpF (N : Nat) (result : String → String) :
    Nat → List String → List (Nat × String) → Nat → TopUpR
  | 0, pending, jobs, nextId => ⟨pending, jobs, nextId, []⟩
  | fuel + 1, pending, jobs, nextId =>
    if jobs.length < N then
      match pyPop pending with
      | some (f, p') =>
        let r := topUpF N result fuel p' (jobs ++ [(nextId, f)]) (nextId + 1)
        ⟨r.pending, r.jobs, r.nextId, .launch nextId f :: r.evs⟩
      | none => ⟨pending, jobs, nextId, []⟩
    else ⟨pending, jobs, nextId, []⟩

/-- The in-memory tables `build` mutates while merging worker results. -/
structure BuildDB where
  models : List (String × Json)
  labels : List (String × Json)

/-- Processing one completed worker's standard output (the body of the
`try` in the build loop): a `json.JSONDecodeError` is logged and skipped;
otherwise the model record is inserted under its name and the labels merged
with `dict.update`.  The adapter wire contract (§6) makes `model`/`labels`
objects and the name a string; other shapes raise. -/
def processOut (db : BuildDB) (outs : String) : Except PyErr BuildDB :=
  match loads outs with
  | none => .ok db
  | some j =>
    match jGet j "model" with
    | .error e => .error e
    | .ok model =>
      match jGet model "name" with
      | .error e => .error e
      | .ok (.str name) =>
        match jGet j "labels" with
        | .error e => .error e
        | .ok (.obj lfs) => .ok ⟨dictInsert db.models name model, dictUpdate db.labels lfs⟩
        | .ok _ => .error .typeError
      | .ok _ => .error .typeError

/-- The outer `while len(model_files) > 0 or len(jobs) > 0` loop: top up to
`N` workers, then `popleft` the oldest job (an `IndexError` if the deque is
empty), wait for it and process its output.  Returns the event trace and
the final tables (or the uncaught exception).  `fuel` is
`pending.length + jobs.length` at entry — the loop collects exactly one job
per iteration. -/
def buildLoopF (N : Nat) (result : String → String) :
    Nat → List String → List (Nat × String) → Nat → BuildDB →
    List BEvent × Except PyErr BuildDB
  | 0, _, _, _, db => ([], .ok db)
  | fuel + 1, pending, jobs, nextId, db =>
    if pending.isEmpty ∧ jobs.isEmpty then ([], .ok db)
    else
      let r := topUpF N result pending.length pending jobs nextId
      match r.jobs with
      | [] => (r.evs, .error .indexError)
      | (id, f) :: restJobs =>
        match processOut db (result f) with
        | .error e => (r.evs ++ [.collect id f], .error e)
        | .ok db' =>
          let k := buildLoopF N result fuel r.pending restJobs r.nextId db'
          (r.evs ++ .collect id f :: k.1, k.2)

/-- `ThicketDB.build(models_dir, sdk_path)`: reset the tables
(`initialize`), enumerate the asset files (`files`, in scan order), run the
worker loop with `numJobs cpuCount` parallel jobs, and report the
`(model_count, num_models)` tally that the final log line prints.
`result f` is the standard output of the worker spawned for file `f`. -/
def buildRun (cpuCount : Option Nat) (files : List String) (result : String → String) :
    List BEvent × Except PyErr (BuildDB × Nat × Nat) :=
  let r := buildLoopF (numJobs cpuCount) result files.length files [] 0 ⟨[], []⟩
  (r.1, r.2.map fun db => (db, db.models.length, files.length))

theorem pyPop_eq {α : Type} : ∀ (l : List α) (y : α) (rest : List α),
    pyPop l = some (y, rest) → l = rest ++ [y] := by
  intro l
  induction l with
  | nil => intro y rest h; cases h
  | cons x xs ih =>
    intro y rest h
    simp only [pyPop] at h
    cases hx : pyPop xs with
    | some p =>
      obtain ⟨y2, rest2⟩ := p
      rw [hx] at h
      injection h with h12
      cases h12
      rw [ih _ _ hx]
      rfl
    | none =>
      rw [hx] at h
      injection h with h12
      cases h12
      rw [(pyPop_none xs).mp hx]
      rfl

theorem launchFiles_launch (i : Nat) (f : String) (l : List BEvent) :
    launchFiles (.launch i f :: l) = f :: launchFiles l := by
  simp [launchFiles]

theorem launchIds_launch (i : Nat) (f : String) (l : List BEvent) :
    launchIds (.launch i f :: l) = i :: launchIds l := by
  simp [launchIds]

theorem collectIds_launch (i : Nat) (f : String) (l : List BEvent) :
    collectIds (.launch i f :: l) = collectIds l := by
  simp [collectIds]

theorem topUpF_spec (N : Nat) (result : String → String) :
    ∀ (fuel : Nat) (p : List String) (j : List (Nat × String)) (nid : Nat),
    fuel = p.length →
    (topUpF N result fuel p j nid).pending.length + (topUpF N result fuel p j nid).jobs.length
        = p.length + j.length ∧
    (topUpF N result fuel p j nid).jobs.map Prod.snd
        = j.map Prod.snd ++ launchFiles (topUpF N result fuel p j nid).evs ∧
    launchFiles (topUpF N result fuel p j nid).evs
        ++ (topUpF N result fuel p j nid).pending.reverse = p.reverse ∧
    (topUpF N result fuel p j nid).jobs.map Prod.fst
        = j.map Prod.fst ++ launchIds (topUpF N result fuel p j nid).evs ∧
    collectIds (topUpF N result fuel p j nid).evs = [] ∧
    (j.length ≤ N →
      (∀ n, (j.length : Int) + net ((topUpF N result fuel p j nid).evs.take n) ≤ N) ∧
      (topUpF N result fuel p j nid).jobs.length ≤ N) ∧
    (1 ≤ N → (topUpF N result fuel p j nid).jobs = [] → p = [] ∧ j = []) := by
  intro fuel
  induction fuel with
  | zero =>
    intro p j nid hlen
    have hp : p = [] := List.length_eq_zero.mp hlen.symm
    subst hp
    simp only [topUpF]
    refine ⟨by simp, by simp [launchFiles], by simp [launchFiles], by simp [launchIds],
      by simp [collectIds], ?_, ?_⟩
    · intro hj
      refine ⟨?_, hj⟩
      intro n
      simp only [List.take_nil, net, List.map_nil, List.sum_nil, add_zero]
      exact_mod_cast hj
    · intro hN hjobs
      exact ⟨by simp, hjobs⟩
  | succ fuel ih =>
    intro p j nid hlen
    by_cases hlt : j.length < N
    · cases hp : pyPop p with
      | none =>
        have : p = [] := (pyPop_none p).mp hp
        subst this
        simp at hlen
      | some pr =>
        obtain ⟨f, p'⟩ := pr
        have hpeq : p = p' ++ [f] := pyPop_eq p f p' hp
        have hplen : fuel = p'.length := by
          have := pyPop_length p f p' hp
          omega
        have H := ih p' (j ++ [(nid, f)]) (nid + 1) hplen
        obtain ⟨ih1, ih2, ih3, ih4, ih5, ih6, ih7⟩ := H
        have hunfold : topUpF N result (fuel + 1) p j nid =
            ⟨(topUpF N result fuel p' (j ++ [(nid, f)]) (nid + 1)).pending,
             (topUpF N result fuel p' (j ++ [(nid, f)]) (nid + 1)).jobs,
             (topUpF N result fuel p' (j ++ [(nid, f)]) (nid + 1)).nextId,
             .launch nid f :: (topUpF N result fuel p' (j ++ [(nid, f)]) (nid + 1)).evs⟩ := by
          rw [topUpF, if_pos hlt, hp]
        rw [hunfold]
        refine ⟨?_, ?_, ?_, ?_, ?_, ?_, ?_⟩
        · simp only []
          rw [hpeq]
          simp at ih1 ⊢
          omega
        · simp only [launchFiles_launch]
          rw [ih2]
          simp
        · simp only [launchFiles_launch]
          rw [hpeq]
          simp only [List.reverse_append, List.reverse_cons, List.reverse_nil,
            List.nil_append, List.singleton_append, List.cons_append]
          rw [← ih3]
        · simp only [launchIds_launch]
          rw [ih4]
          simp
        · simp only [collectIds_launch]
          exact ih5
        · intro hj
          have hj1 : (j ++ [(nid, f)]).length ≤ N := by
            simp
            omega
          obtain ⟨hb1, hb2⟩ := ih6 hj1
          refine ⟨?_, hb2⟩
          intro n
          cases n with
          | zero =>
            simp only [List.take_zero, net, List.map_nil, List.sum_nil, add_zero]
            exact_mod_cast le_of_lt hlt
          | succ m =>
            simp only [List.take_succ_cons, net, List.map_cons, List.sum_cons, evDelta]
            have := hb1 m
            simp only [net] at this
            simp only [List.length_append, List.length_cons, List.length_nil] at this
            push_cast at this ⊢
            omega
        · intro hN hjobs
          simp only [] at hjobs
          have := ih7 hN hjobs
          have h2 := this.2
          simp at h2
    · have hunfold : topUpF N result (fuel + 1) p j nid = ⟨p, j, nid, []⟩ := by
        rw [topUpF, if_neg hlt]
      rw [hunfold]
      refine ⟨by simp, by simp [launchFiles], by simp [launchFiles], by simp [launchIds],
        by simp [collectIds], ?_, ?_⟩
      · intro hj
        refine ⟨?_, hj⟩
        intro n
        simp only [List.take_nil, net, List.map_nil, List.sum_nil, add_zero]
        exact_mod_cast hj
      · intro hN hjobs
        subst hjobs
        simp at hlt
        omega

/-- Sequential processing of a list of worker outputs (the order the build
loop collects them in), stopping at the first uncaught exception. -/
def processAll (result : String → String) : BuildDB → List String → Except PyErr BuildDB
  | db, [] => .ok db
  | db, f :: t =>
    match processOut db (result f) with
    | .ok db' => processAll result db' t
    | .error e => .error e

theorem buildLoopF_step (N : Nat) (result : String → String) (fuel : Nat) (p : List String)
    (j : List (Nat × String)) (nid : Nat) (db : BuildDB)
    (hne : ¬(p.isEmpty ∧ j.isEmpty)) :
    buildLoopF N result (fuel + 1) p j nid db =
      (let r := topUpF N result p.length p j nid
       match r.jobs with
       | [] => (r.evs, .error .indexError)
       | (id, f) :: restJobs =>
         match processOut db (result f) with
         | .error e => (r.evs ++ [.collect id f], .error e)
         | .ok db' =>
           let k := buildLoopF N result fuel r.pending restJobs r.nextId db'
           (r.evs ++ .collect id f :: k.1, k.2)) := by
  rw [buildLoopF]
  rw [if_neg hne]

theorem collectIds_collect (i : Nat) (f : String) (l : List BEvent) :
    collectIds (.collect i f :: l) = i :: collectIds l := by
  simp [collectIds]

theorem launchIds_collect (i : Nat) (f : String) (l : List BEvent) :
    launchIds (.collect i f :: l) = launchIds l := by
  simp [launchIds]

theorem launchFiles_collect (i : Nat) (f : String) (l : List BEvent) :
    launchFiles (.collect i f :: l) = launchFiles l := by
  simp [launchFiles]

theorem launchFiles_append (a b : List BEvent) :
    launchFiles (a ++ b) = launchFiles a ++ launchFiles b := by
  simp [launchFiles]

theorem launchIds_append (a b : List BEvent) :
    launchIds (a ++ b) = launchIds a ++ launchIds b := by
  simp [launchIds]

theorem collectIds_append (a b : List BEvent) :
    collectIds (a ++ b) = collectIds a ++ collectIds b := by
  simp [collectIds]

theorem net_append (a b : List BEvent) : net (a ++ b) = net a + net b := by
  simp [net]

theorem net_eq (l : List BEvent) :
    net l = (launchFiles l).length - (collectIds l).length := by
  induction l with
  | nil => simp [net, launchFiles, collectIds]
  | cons e t ih =>
    cases e with
    | launch i f =>
      rw [show BEvent.launch i f :: t = [BEvent.launch i f] ++ t from rfl, net_append,
        launchFiles_append, collectIds_append]
      simp only [List.length_append]
      rw [ih]
      simp [net, evDelta, launchFiles, collectIds]
      omega
    | collect i f =>
      rw [show BEvent.collect i f :: t = [BEvent.collect i f] ++ t from rfl, net_append,
        launchFiles_append, collectIds_append]
      simp only [List.length_append]
      rw [ih]
      simp [net, evDelta, launchFiles, collectIds]
      omega

theorem buildLoopF_db (N : Nat) (result : String → String) (hN : 1 ≤ N) :
    ∀ (fuel : Nat) (p : List String) (j : List (Nat × String)) (nid : Nat) (db : BuildDB),
    fuel = p.length + j.length →
    (buildLoopF N result fuel p j nid db).2 =
      processAll result db (j.map Prod.snd ++ p.reverse) := by
  intro fuel
  induction fuel with
  | zero =>
    intro p j nid db hlen
    have hp : p = [] := List.length_eq_zero.mp (by omega)
    have hj : j = [] := List.length_eq_zero.mp (by omega)
    subst hp
    subst hj
    simp [buildLoopF, processAll]
  | succ fuel ih =>
    intro p j nid db hlen
    have hne : ¬(p.isEmpty ∧ j.isEmpty) := by
      intro h
      obtain ⟨hp, hj⟩ := h
      rw [List.isEmpty_iff] at hp hj
      subst hp
      subst hj
      simp at hlen
    rw [buildLoopF_step N result fuel p j nid db hne]
    obtain ⟨hsum, hsnd, hfiles, hids, hcoll, hbound, hprog⟩ :=
      topUpF_spec N result p.length p j nid rfl
    have hrw : j.map Prod.snd ++ p.reverse =
        (topUpF N result p.length p j nid).jobs.map Prod.snd
          ++ (topUpF N result p.length p j nid).pending.reverse := by
      rw [hsnd, ← hfiles]
      simp [List.append_assoc]
    rw [hrw]
    cases hrj : (topUpF N result p.length p j nid).jobs with
    | nil =>
      obtain ⟨hp, hj⟩ := hprog hN hrj
      subst hp
      subst hj
      simp at hlen
    | cons hd restJobs =>
      obtain ⟨id, f⟩ := hd
      simp only [hrj]
      rw [show ((id, f) :: restJobs).map Prod.snd = f :: restJobs.map Prod.snd from rfl]
      rw [List.cons_append, processAll]
      cases hpo : processOut db (result f) with
      | error e => simp only []
      | ok db' =>
        simp only []
        apply ih
        rw [hrj] at hsum
        simp only [List.length_cons] at hsum
        omega

theorem buildLoopF_launches (N : Nat) (result : String → String) (hN : 1 ≤ N) :
    ∀ (fuel : Nat) (p : List String) (j : List (Nat × String)) (nid : Nat) (db : BuildDB),
    fuel = p.length + j.length →
    (∃ suffix, p.reverse = launchFiles (buildLoopF N result fuel p j nid db).1 ++ suffix) ∧
    (∀ db2, (buildLoopF N result fuel p j nid db).2 = .ok db2 →
      launchFiles (buildLoopF N result fuel p j nid db).1 = p.reverse) := by
  intro fuel
  induction fuel with
  | zero =>
    intro p j nid db hlen
    have hp : p = [] := List.length_eq_zero.mp (by omega)
    subst hp
    exact ⟨⟨[], by simp [buildLoopF, launchFiles]⟩, by intro db2 h2; simp [buildLoopF, launchFiles]⟩
  | succ fuel ih =>
    intro p j nid db hlen
    by_cases hne : p.isEmpty ∧ j.isEmpty
    · obtain ⟨hp, hj⟩ := hne
      rw [List.isEmpty_iff] at hp hj
      subst hp
      subst hj
      simp at hlen
    · rw [buildLoopF_step N result fuel p j nid db hne]
      obtain ⟨hsum, hsnd, hfiles, hids, hcoll, hbound, hprog⟩ :=
        topUpF_spec N result p.length p j nid rfl
      cases hrj : (topUpF N result p.length p j nid).jobs with
      | nil =>
        obtain ⟨hp, hj⟩ := hprog hN hrj
        subst hp
        subst hj
        simp at hlen
      | cons hd restJobs =>
        obtain ⟨id, f⟩ := hd
        simp only [hrj]
        cases hpo : processOut db (result f) with
        | error e =>
          simp only []
          refine ⟨⟨(topUpF N result p.length p j nid).pending.reverse, ?_⟩, ?_⟩
          · rw [launchFiles_append, launchFiles_collect]
            simp only [launchFiles, List.filterMap_nil, List.append_nil]
            exact hfiles.symm
          · intro db2 h2
            simp at h2
        | ok db' =>
          simp only []
          rw [hrj] at hsum
          simp only [List.length_cons] at hsum
          obtain ⟨⟨s, hs⟩, hok⟩ := ih (topUpF N result p.length p j nid).pending restJobs
            (topUpF N result p.length p j nid).nextId db' (by omega)
          refine ⟨⟨s, ?_⟩, ?_⟩
          · rw [launchFiles_append, launchFiles_collect, ← hfiles, List.append_assoc, ← hs]
          · intro db2 h2
            rw [launchFiles_append, launchFiles_collect, hok db2 h2, hfiles]

theorem buildLoopF_fifo (N : Nat) (result : String → String) :
    ∀ (fuel : Nat) (p : List String) (j : List (Nat × String)) (nid : Nat) (db : BuildDB),
    fuel = p.length + j.length →
    (∃ suffix, j.map Prod.fst ++ launchIds (buildLoopF N result fuel p j nid db).1 =
      collectIds (buildLoopF N result fuel p j nid db).1 ++ suffix) ∧
    (∀ db2, (buildLoopF N result fuel p j nid db).2 = .ok db2 →
      collectIds (buildLoopF N result fuel p j nid db).1 =
        j.map Prod.fst ++ launchIds (buildLoopF N result fuel p j nid db).1) := by
  intro fuel
  induction fuel with
  | zero =>
    intro p j nid db hlen
    have hj : j = [] := List.length_eq_zero.mp (by omega)
    subst hj
    refine ⟨⟨[], by simp [buildLoopF, launchIds, collectIds]⟩, ?_⟩
    intro db2 h2
    simp [buildLoopF, launchIds, collectIds]
  | succ fuel ih =>
    intro p j nid db hlen
    by_cases hne : p.isEmpty ∧ j.isEmpty
    · obtain ⟨hp, hj⟩ := hne
      rw [List.isEmpty_iff] at hp hj
      subst hp
      subst hj
      simp at hlen
    · rw [buildLoopF_step N result fuel p j nid db hne]
      obtain ⟨hsum, hsnd, hfiles, hids, hcoll, hbound, hprog⟩ :=
        topUpF_spec N result p.length p j nid rfl
      cases hrj : (topUpF N result p.length p j nid).jobs with
      | nil =>
        simp only [hrj]
        refine ⟨⟨j.map Prod.fst ++ launchIds (topUpF N result p.length p j nid).evs, ?_⟩, ?_⟩
        · rw [hcoll]
          rfl
        · intro db2 h2
          simp at h2
      | cons hd restJobs =>
        obtain ⟨id, f⟩ := hd
        simp only [hrj]
        have hidseq : j.map Prod.fst ++ launchIds (topUpF N result p.length p j nid).evs =
            id :: restJobs.map Prod.fst := by
          rw [← hids, hrj]
          rfl
        cases hpo : processOut db (result f) with
        | error e =>
          simp only []
          refine ⟨⟨restJobs.map Prod.fst, ?_⟩, ?_⟩
          · rw [launchIds_append, collectIds_append, hcoll]
            rw [show launchIds [BEvent.collect id f] = [] from rfl,
              show collectIds [BEvent.collect id f] = [id] from rfl]
            simp only [List.append_nil, List.nil_append]
            rw [hidseq]
            rfl
          · intro db2 h2
            simp at h2
        | ok db' =>
          simp only []
          rw [hrj] at hsum
          simp only [List.length_cons] at hsum
          obtain ⟨⟨s, hs⟩, hok⟩ := ih (topUpF N result p.length p j nid).pending restJobs
            (topUpF N result p.length p j nid).nextId db' (by omega)
          rw [launchIds_append, collectIds_append, hcoll, launchIds_collect, collectIds_collect]
          refine ⟨⟨s, ?_⟩, ?_⟩
          · rw [← List.append_assoc, hidseq]
            simp only [List.nil_append, List.cons_append]
            rw [hs]
          · intro db2 h2
            rw [hok db2 h2, ← List.append_assoc, hidseq]
            rfl

theorem buildLoopF_bound (N : Nat) (result : String → String) :
    ∀ (fuel : Nat) (p : List String) (j : List (Nat × String)) (nid : Nat) (db : BuildDB),
    j.length ≤ N →
    ∀ n, (j.length : Int) + net ((buildLoopF N result fuel p j nid db).1.take n) ≤ N := by
  intro fuel
  induction fuel with
  | zero =>
    intro p j nid db hj n
    simp only [buildLoopF, List.take_nil, net, List.map_nil, List.sum_nil, add_zero]
    exact_mod_cast hj
  | succ fuel ih =>
    intro p j nid db hj n
    by_cases hne : p.isEmpty ∧ j.isEmpty
    · rw [buildLoopF]
      rw [if_pos hne]
      simp only [List.take_nil, net, List.map_nil, List.sum_nil, add_zero]
      exact_mod_cast hj
    · rw [buildLoopF_step N result fuel p j nid db hne]
      obtain ⟨hsum, hsnd, hfiles, hids, hcoll, hbound, hprog⟩ :=
        topUpF_spec N result p.length p j nid rfl
      obtain ⟨hb1, hb2⟩ := hbound hj
      have hnetfull : net (topUpF N result p.length p j nid).evs =
          ((topUpF N result p.length p j nid).jobs.length : Int) - j.length := by
        rw [net_eq, hcoll]
        have : (topUpF N result p.length p j nid).jobs.length =
            j.length + (launchFiles (topUpF N result p.length p j nid).evs).length := by
          have := congrArg List.length hsnd
          simpa using this
        simp only [List.length_nil]
        omega
      cases hrj : (topUpF N result p.length p j nid).jobs with
      | nil =>
        simp only [hrj]
        exact hb1 n
      | cons hd restJobs =>
        obtain ⟨id, f⟩ := hd
        simp only [hrj]
        cases hpo : processOut db (result f) with
        | error e =>
          simp only []
          rw [List.take_append_eq_append_take, net_append]
          have h2 : net (([BEvent.collect id f] : List BEvent).take
              (n - (topUpF N result p.length p j nid).evs.length)) ≤ 0 := by
            cases hm : n - (topUpF N result p.length p j nid).evs.length with
            | zero => simp [net]
            | succ m => simp [net, evDelta, List.take_succ_cons]
          have h1 := hb1 n
          omega
        | ok db' =>
          simp only []
          rw [List.take_append_eq_append_take, net_append]
          cases hm : n - (topUpF N result p.length p j nid).evs.length with
          | zero =>
            simp only [List.take_zero, net, List.map_nil, List.sum_nil, add_zero]
            exact hb1 n
          | succ m =>
            have hge : (topUpF N result p.length p j nid).evs.length ≤ n := by omega
            rw [List.take_of_length_le hge]
            simp only [List.take_succ_cons, net, List.map_cons, List.sum_cons, evDelta]
            have hrest : restJobs.length ≤ N := by
              rw [hrj] at hb2
              simp only [List.length_cons] at hb2
              omega
            have hih := ih (topUpF N result p.length p j nid).pending restJobs
              (topUpF N result p.length p j nid).nextId db' hrest m
            rw [hrj] at hnetfull
            simp only [List.length_cons] at hnetfull
            simp only [net] at hih hnetfull ⊢
            push_cast at hih hnetfull ⊢
            omega

/-- `key in labels` / `labels[key]` when `key` is an arbitrary JSON value:
for a string key `get_label` runs normally; a list or dict key is unhashable
(`TypeError`, uncaught); any other hashable non-string key misses the
string-keyed table, and the `except KeyError` answers with the key itself. -/
def getLabelKeyJ (db : ThDB) (k : Json) : Except PyErr Json :=
  match k with
  | .str s => .ok (.str (getLabel db s none))
  | .arr _ => .error .typeError
  | .obj _ => .error .typeError
  | other => .ok other

/-- Python `for x in j`: lists yield elements, dicts their keys, strings
their characters; null/bool/int are not iterable (`TypeError`). -/
def jIter (j : Json) : Except PyErr (List Json) :=
  match j with
  | .arr xs => .ok xs
  | .obj fs => .ok (fs.map fun kv => .str kv.1)
  | .str s => .ok (s.data.map fun c => .str (String.mk [c]))
  | _ => .error .typeError

/-- Python `j[k]` where `k` is itself a JSON value: only dicts accept
string keys; an unhashable key raises `TypeError`, any other key misses the
string-keyed dict (`KeyError`). -/
def jGetKey (j : Json) (k : Json) : Except PyErr Json :=
  match j with
  | .obj fs =>
    match k with
    | .str s =>
      match lookupA fs s with
      | some v => .ok v
      | none => .error .keyError
    | .arr _ => .error .typeError
    | .obj _ => .error .typeError
    | _ => .error .keyError
  | _ => .error .typeError

/-- Python `j == s` for a JSON value and a string: true exactly for an
equal string. -/
def jEqStr (j : Json) (s : String) : Bool :=
  match j with
  | .str t => t = s
  | _ => false

/-- `DBSeason.__init__`: the season name and its resolved label. -/
structure DBSeasonV where
  name : Json
  label : Json

/-- `DBSeason(db, name)`. -/
def mkDBSeason (db : ThDB) (s : Json) : Except PyErr DBSeasonV :=
  match getLabelKeyJ db s with
  | .ok lbl => .ok ⟨s, lbl⟩
  | .error e => .error e

/-- `DBVariant.__init__`: name, resolved label, season views, cached
default season, preview (the model preview when the variant's is empty). -/
structure DBVariantV where
  name : Json
  label : Json
  seasons : List DBSeasonV
  defaultSeason : DBSeasonV
  preview : Json

/-- `DBVariant(db, name, v_rec, model_preview)`, in source order: label,
seasons, default season, preview. -/
def mkDBVariant (db : ThDB) (name : Json) (vrec : Json) (modelPreview : Json) :
    Except PyErr DBVariantV :=
  match getLabelKeyJ db name with
  | .error e => .error e
  | .ok lbl =>
    match jGet vrec "seasons" with
    | .error e => .error e
    | .ok seasonsJ =>
      match jIter seasonsJ with
      | .error e => .error e
      | .ok selems =>
        match selems.mapM (mkDBSeason db) with
        | .error e => .error e
        | .ok seasons =>
          match jGet vrec "default_season" with
          | .error e => .error e
          | .ok ds =>
            match mkDBSeason db ds with
            | .error e => .error e
            | .ok defS =>
              match jGet vrec "preview" with
              | .error e => .error e
              | .ok pv =>
                let preview := if jEqStr pv "" then modelPreview else pv
                .ok ⟨name, lbl, seasons, defS, preview⟩

/-- `DBModel.__init__`: name, stored record fields, resolved label, variant
views for every variant, cached default variant. -/
structure DBModelV where
  name : String
  md5 : Json
  filepath : Json
  label : String
  variants : List DBVariantV
  defaultVariant : DBVariantV
  preview : Json

/-- `DBModel(db, name)`, in source order: record lookup, md5, filepath,
label, preview, variant views, `variants[default_variant]`. -/
def mkDBModel (db : ThDB) (name : String) : Except PyErr DBModelV :=
  match lookupA db.models name with
  | none => .error .keyError
  | some mrec =>
    match jGet mrec "md5" with
    | .error e => .error e
    | .ok md5 =>
      match jGet mrec "filepath" with
      | .error e => .error e
      | .ok filepath =>
        let label := getLabel db name none
        match jGet mrec "preview" with
        | .error e => .error e
        | .ok preview =>
          match jGet mrec "variants" with
          | .error e => .error e
          | .ok variantsJ =>
            match jIter variantsJ with
            | .error e => .error e
            | .ok velems =>
              match velems.mapM (fun v =>
                  match jGetKey variantsJ v with
                  | .error e => Except.error e
                  | .ok vrec => mkDBVariant db v vrec preview) with
              | .error e => .error e
              | .ok variants =>
                match jGet mrec "default_variant" with
                | .error e => .error e
                | .ok defV =>
                  match jGetKey variantsJ defV with
                  | .error e => .error e
                  | .ok defVrec =>
                    match mkDBVariant db defV defVrec preview with
                    | .error e => .error e
                    | .ok defVariant =>
                      .ok ⟨name, md5, filepath, label, variants, defVariant, preview⟩


/-- `ThicketDB.get_model(filepath, name)`: resolve by name when given,
truthy and present; else scan all models for a `filepath` match (last match
wins; a record without the field raises `KeyError` mid-scan); construct the
view only for a truthy resolved name; "not found" is `none`, not an
exception. -/
def get_model (db : ThDB) (filepath : Option String) (name : Option String) :
    Except PyErr (Option DBModelV) :=
  let name1 : Option String :=
    if pyTruthy name then
      match name with
      | some n => if (lookupA db.models n).isSome then some n else none
      | none => none
    else name
  let scanned : Except PyErr (Option String) :=
    if name1 = none ∧ pyTruthy filepath then
      db.models.foldlM (fun acc kv =>
        match jGet kv.2 "filepath" with
        | .error e => .error e
        | .ok fp =>
          if jEqStr fp (filepath.getD "") then .ok (some kv.1) else .ok acc) name1
    else .ok name1
  match scanned with
  | .error e => .error e
  | .ok name2 =>
    if pyTruthy name2 then
      match name2 with
      | some n =>
        match mkDBModel db n with
        | .error e => .error e
        | .ok m => .ok (some m)
      | none => .ok none
    else .ok none

def db5 : ThDB := ⟨[("x", [("yue", "Y")])], [], "en-US"⟩

/-- C5 counterexample: for locale "yue-HK" with a stored "yue" entry the code
returns the key while the spec's primary-subtag rule returns the stored label:
the fallback key is the first two characters, not the primary subtag. -/
theorem c5_cex :
    getLabel db5 "x" (some "yue-HK") = "x" ∧
    specResolve db5.labels "x" "yue-HK" = "Y" ∧
    getLabel db5 "x" (some "yue-HK") ≠ specResolve db5.labels "x" "yue-HK" := by
  refine ⟨rfl, rfl, ?_⟩
  decide

/-- C5 amended: for a nonempty explicit locale, `get_label` resolves exactly as
the spec's rule with the primary subtag replaced by the first two characters of
the normalized locale. -/
theorem c5_amended (db : ThDB) (k l : String) (hl : l ≠ "") :
    getLabel db k (some l) = specResolveTake2 db.labels k l := by
  unfold getLabel specResolveTake2 effLocale
  have ht : pyTruthy (some l) = true := by simp [pyTruthy, hl]
  rw [ht]
  simp only [if_true, Option.getD]

/-- C5 witness: the amended resolution rule at a concrete table and locale. -/
theorem c5_witness :
    ("yue-HK" ≠ "") ∧
    getLabel db5 "x" (some "yue-HK") = specResolveTake2 db5.labels "x" "yue-HK" :=
  ⟨by decide, c5_amended db5 "x" "yue-HK" (by decide)⟩

def db6 : ThDB := ⟨[("k", [("en", "")]), ("", [])], [], "en-US"⟩

/-- C6 counterexample: `get_label` can return the empty string, when a stored
display string is empty or when the key itself is empty. -/
theorem c6_cex :
    getLabel db6 "k" (some "en") = "" ∧ getLabel db6 "" (some "fr") = "" :=
  ⟨rfl, rfl⟩

/-- C6 amended: `get_label` is total; a key absent from the label table yields
the key itself, and otherwise the result is either the key or some stored
display string for the key, which may be empty. -/
theorem c6_amended (db : ThDB) (k : String) (loc : Option String) :
    (lookupA db.labels k = none → getLabel db k loc = k) ∧
    (getLabel db k loc = k ∨
      ∃ lm l2, lookupA db.labels k = some lm ∧ lookupA lm l2 = some (getLabel db k loc)) := by
  constructor
  · intro h
    unfold getLabel
    rw [h]
  · cases hk : lookupA db.labels k with
    | none =>
      left
      unfold getLabel
      rw [hk]
    | some lm =>
      cases h1 : lookupA lm (effLocale db loc) with
      | some v =>
        right
        refine ⟨lm, effLocale db loc, rfl, ?_⟩
        unfold getLabel
        simp only [hk, h1]
      | none =>
        cases h2 : lookupA lm (pyTake 2 (effLocale db loc)) with
        | some v =>
          right
          refine ⟨lm, pyTake 2 (effLocale db loc), rfl, ?_⟩
          unfold getLabel
          simp only [hk, h1, h2]
        | none =>
          left
          unfold getLabel
          simp only [hk, h1, h2]

/-- C6 witness: a key missing from an empty label table is returned as-is. -/
theorem c6_witness : getLabel ⟨[], [], "en-US"⟩ "oak" (some "de") = "oak" :=
  (c6_amended ⟨[], [], "en-US"⟩ "oak" (some "de")).1 rfl

def sdk0 : SdkInfo := ⟨"1.0", 1, 0, 0⟩

/-- Whether the open outcome is an error surfaced to the caller. -/
def isErrorOpen : OpenResult → Bool
  | .ok _ => false
  | .okUnset => false
  | _ => true

theorem openDB_of_loads (s : String) (doc info : Json) (n : Int) (create : Bool) (sdk : SdkInfo)
    (h1 : loads s = some doc) (h2 : jGet doc "info" = .ok info)
    (h3 : jGet info "schema_version" = .ok (.num n)) :
    openDB (some s) create sdk =
      if n < SCHEMA_VERSION then .errOldSchema else .ok doc := by
  unfold openDB
  simp only [h1, h2, h3]
  unfold svLtCurrent
  by_cases hn : n < SCHEMA_VERSION
  · simp [hn]
  · simp [hn]

/-- C7 counterexample: malformed JSON in the database file does not surface any
error to the caller, the constructor returns normally with the database unset. -/
theorem c7_cex :
    loads "]" = none ∧
    openDB (some "]") false sdk0 = .okUnset ∧
    isErrorOpen (openDB (some "]") false sdk0) = false :=
  ⟨rfl, rfl, rfl⟩

/-- C7 amended: when the database file does not parse as JSON the error is
logged and swallowed, the constructor returns normally with `_db` left unset. -/
theorem c7_amended (s : String) (create : Bool) (sdk : SdkInfo) (h : loads s = none) :
    openDB (some s) create sdk = .okUnset := by
  unfold openDB
  simp only [h]

/-- C7 witness: opening a file holding the text "not json" returns normally. -/
theorem c7_witness : openDB (some "not json") true sdk0 = .okUnset :=
  c7_amended "not json" true sdk0 rfl

def doc3 : Json :=
  .obj [("info", .obj [("schema_version", .num 3)]), ("labels", .obj []), ("models", .obj [])]

/-- C4 counterexample: a database whose schema version is above the current
constant is accepted, the check rejects only strictly lower versions. -/
theorem c4_cex :
    openDB (some (dumps doc3)) false sdk0 = .ok doc3 ∧ (3 : Int) ≠ SCHEMA_VERSION := by
  constructor
  · rw [openDB_of_loads (dumps doc3) doc3 (.obj [("schema_version", .num 3)]) 3 false sdk0
      (loads_dumps doc3) rfl rfl]
    simp [SCHEMA_VERSION]
  · decide

/-- C4 amended: a parsed database is accepted exactly when its recorded
`schema_version` is at least the current schema constant; strictly lower
versions raise the old-schema error. -/
theorem c4_amended (s : String) (doc info : Json) (n : Int) (create : Bool) (sdk : SdkInfo)
    (h1 : loads s = some doc) (h2 : jGet doc "info" = .ok info)
    (h3 : jGet info "schema_version" = .ok (.num n)) :
    openDB (some s) create sdk =
      if n < SCHEMA_VERSION then .errOldSchema else .ok doc :=
  openDB_of_loads s doc info n create sdk h1 h2 h3

def doc1 : Json :=
  .obj [("info", .obj [("schema_version", .num 1)]), ("labels", .obj []), ("models", .obj [])]

/-- C4 witness: a version-1 database is rejected as stale under schema 2. -/
theorem c4_witness :
    loads (dumps doc1) = some doc1 ∧
    openDB (some (dumps doc1)) false sdk0 = .errOldSchema := by
  refine ⟨loads_dumps doc1, ?_⟩
  rw [c4_amended (dumps doc1) doc1 (.obj [("schema_version", .num 1)]) 1 false sdk0
    (loads_dumps doc1) rfl rfl]
  simp [SCHEMA_VERSION]

/-- C9 counterexample: save-then-open is not the identity for a database whose
recorded schema version is below the current constant, the open is rejected. -/
theorem c9_cex :
    openDB (some (saveDB doc1)) false sdk0 = .errOldSchema ∧
    (OpenResult.errOldSchema ≠ OpenResult.ok doc1) := by
  constructor
  · rw [show saveDB doc1 = dumps doc1 from rfl]
    rw [openDB_of_loads (dumps doc1) doc1 (.obj [("schema_version", .num 1)]) 1 false sdk0
      (loads_dumps doc1) rfl rfl]
    simp [SCHEMA_VERSION]
  · intro h
    cases h

/-- C9 amended: saving a database document and opening the saved file yields the
identical document, provided its recorded `schema_version` is at least the
current schema constant. -/
theorem c9_roundtrip (doc info : Json) (n : Int) (create : Bool) (sdk : SdkInfo)
    (h2 : jGet doc "info" = .ok info)
    (h3 : jGet info "schema_version" = .ok (.num n))
    (h4 : SCHEMA_VERSION ≤ n) :
    openDB (some (saveDB doc)) create sdk = .ok doc := by
  rw [show saveDB doc = dumps doc from rfl]
  rw [openDB_of_loads (dumps doc) doc info n create sdk (loads_dumps doc) h2 h3]
  rw [if_neg (by omega)]

def doc2 : Json :=
  .obj [("info", .obj [("schema_version", .num 2)]),
        ("labels", .obj [("abies alba", .obj [("en", .str "White Fir")])]),
        ("models", .obj [])]

/-- C9 witness: a schema-2 document with one label entry roundtrips through
save and open. -/
theorem c9_witness :
    openDB (some (saveDB doc2)) false sdk0 = .ok doc2 :=
  c9_roundtrip doc2 (.obj [("schema_version", .num 2)]) 2 false sdk0 rfl rfl (by decide)

theorem lookupA_none_of_not_mem {α : Type} (l : List (String × α)) (k : String)
    (h : k ∉ l.map Prod.fst) : lookupA l k = none := by
  induction l with
  | nil => rfl
  | cons hd t ih =>
    obtain ⟨k0, v0⟩ := hd
    simp only [List.map_cons, List.mem_cons] at h
    push_neg at h
    rw [lookupA, if_neg (fun he => h.1 he.symm), ih h.2]

theorem lookupA_dictUpdate {α : Type} (m : List (String × α)) :
    ∀ (d : List (String × α)) (k : String), (m.map Prod.fst).Nodup →
    lookupA (dictUpdate d m) k =
      (match lookupA m k with
       | some v => some v
       | none => lookupA d k) := by
  induction m with
  | nil =>
    intro d k hnd
    rw [show dictUpdate d [] = d from rfl, lookupA]
  | cons hd t ih =>
    intro d k hnd
    obtain ⟨k0, v0⟩ := hd
    simp only [List.map_cons, List.nodup_cons] at hnd
    obtain ⟨hk0, hndt⟩ := hnd
    rw [show dictUpdate d ((k0, v0) :: t) = dictUpdate (dictInsert d k0 v0) t from rfl]
    rw [ih (dictInsert d k0 v0) k hndt]
    by_cases he : k0 = k
    · subst he
      rw [show lookupA ((k0, v0) :: t) k0 = some v0 from by rw [lookupA, if_pos rfl]]
      rw [lookupA_none_of_not_mem t k0 hk0]
      rw [lookupA_dictInsert_self]
    · rw [show lookupA ((k0, v0) :: t) k = lookupA t k from by rw [lookupA, if_neg he]]
      cases ht : lookupA t k with
      | some v => rfl
      | none =>
        rw [lookupA_dictInsert]
        rw [if_neg he]

def labelsEx : List (String × List (String × String)) :=
  [("k", [("en", "A"), ("fr", "B")])]

def labelsInc : List (String × List (String × String)) :=
  [("k", [("en", "C")])]

/-- C3 counterexample: the label merge is a shallow `dict.update`, an incoming
key replaces the whole stored locale map instead of merging per locale. -/
theorem c3_cex :
    updateLabels labelsEx labelsInc = [("k", [("en", "C")])] ∧
    specLabelUnion labelsEx labelsInc = [("k", [("en", "C"), ("fr", "B")])] ∧
    updateLabels labelsEx labelsInc ≠ specLabelUnion labelsEx labelsInc := by
  refine ⟨rfl, rfl, ?_⟩
  decide

/-- C3 amended: after `update_labels`, a key present in the incoming mapping
resolves to its entire incoming locale map, and a key absent from the incoming
mapping keeps its previous map. -/
theorem c3_amended (table incoming : List (String × List (String × String)))
    (hnd : (incoming.map Prod.fst).Nodup) (k : String) :
    lookupA (updateLabels table incoming) k =
      (match lookupA incoming k with
       | some lm => some lm
       | none => lookupA table k) := by
  unfold updateLabels
  rw [lookupA_dictUpdate incoming table k hnd]
  cases lookupA incoming k <;> rfl

/-- C3 witness: the amended merge rule at a concrete table and incoming map. -/
theorem c3_witness :
    ((labelsInc.map Prod.fst).Nodup) ∧
    lookupA (updateLabels labelsEx labelsInc) "k" = some [("en", "C")] ∧
    lookupA (updateLabels labelsEx labelsInc) "zz" = none := by
  refine ⟨by decide, ?_, ?_⟩
  · rw [c3_amended labelsEx labelsInc (by decide) "k"]
    rfl
  · rw [c3_amended labelsEx labelsInc (by decide) "zz"]
    rfl

/-- C1: the build scheduler keeps at most `num_jobs` jobs in flight at every
point of the trace, collects jobs in launch order, and on normal completion has
collected every launched job. -/
theorem c1_thm (c : Option Nat) (files : List String) (result : String → String) :
    (∀ n, net (((buildRun c files result).1).take n) ≤ (numJobs c : Int)) ∧
    (∃ suffix, launchIds (buildRun c files result).1 =
      collectIds (buildRun c files result).1 ++ suffix) ∧
    (∀ db tally, (buildRun c files result).2 = .ok (db, tally) →
      collectIds (buildRun c files result).1 = launchIds (buildRun c files result).1) := by
  have htr : (buildRun c files result).1 =
      (buildLoopF (numJobs c) result files.length files [] 0 ⟨[], []⟩).1 := rfl
  refine ⟨?_, ?_, ?_⟩
  · intro n
    rw [htr]
    have := buildLoopF_bound (numJobs c) result files.length files [] 0 ⟨[], []⟩
      (by simp) n
    simpa using this
  · obtain ⟨⟨s, hs⟩, _⟩ := buildLoopF_fifo (numJobs c) result files.length files [] 0 ⟨[], []⟩
      (by simp)
    rw [htr]
    exact ⟨s, by simpa using hs⟩
  · intro db tally h
    obtain ⟨_, hok⟩ := buildLoopF_fifo (numJobs c) result files.length files [] 0 ⟨[], []⟩
      (by simp)
    rw [htr]
    cases hr : (buildLoopF (numJobs c) result files.length files [] 0 ⟨[], []⟩).2 with
    | error e =>
      exfalso
      have : (buildRun c files result).2 = .error e := by
        show ((buildLoopF (numJobs c) result files.length files [] 0 ⟨[], []⟩).2).map _ = _
        rw [hr]
        rfl
      rw [this] at h
      cases h
    | ok db0 =>
      have := hok db0 hr
      simpa using this

/-- C1 witness: a three-file build with two jobs collects all launched jobs. -/
theorem c1_witness :
    collectIds (buildRun (some 2) ["a", "b", "c"] (fun _ => "junk")).1 =
      launchIds (buildRun (some 2) ["a", "b", "c"] (fun _ => "junk")).1 :=
  (c1_thm (some 2) ["a", "b", "c"] (fun _ => "junk")).2.2 ⟨[], []⟩ (0, 3) rfl

/-- C8 counterexample: files are launched in reverse enumeration order, the
pending list is consumed from its end as a stack. -/
theorem c8_cex :
    launchFiles (buildRun (some 2) ["a", "b"] (fun _ => "x")).1 = ["b", "a"] ∧
    (["b", "a"] : List String) ≠ ["a", "b"] :=
  ⟨rfl, by decide⟩

/-- C8 amended: the launch order is always a prefix of the reversed enumeration
order, and on normal completion is exactly the reversed enumeration order. -/
theorem c8_amended (c : Option Nat) (files : List String) (result : String → String) :
    (∃ suffix, files.reverse = launchFiles (buildRun c files result).1 ++ suffix) ∧
    (∀ db tally, (buildRun c files result).2 = .ok (db, tally) →
      launchFiles (buildRun c files result).1 = files.reverse) := by
  have htr : (buildRun c files result).1 =
      (buildLoopF (numJobs c) result files.length files [] 0 ⟨[], []⟩).1 := rfl
  obtain ⟨⟨s, hs⟩, hok⟩ := buildLoopF_launches (numJobs c) result (numJobs_pos c)
    files.length files [] 0 ⟨[], []⟩ (by simp)
  refine ⟨⟨s, by rw [htr]; exact hs⟩, ?_⟩
  intro db tally h
  rw [htr]
  cases hr : (buildLoopF (numJobs c) result files.length files [] 0 ⟨[], []⟩).2 with
  | error e =>
    exfalso
    have : (buildRun c files result).2 = .error e := by
      show ((buildLoopF (numJobs c) result files.length files [] 0 ⟨[], []⟩).2).map _ = _
      rw [hr]
      rfl
    rw [this] at h
    cases h
  | ok db0 => exact hok db0 hr

/-- C8 witness: a three-file single-job build launches in reverse order. -/
theorem c8_witness :
    launchFiles (buildRun (some 1) ["a", "b", "c"] (fun _ => "no")).1 =
      (["a", "b", "c"] : List String).reverse :=
  (c8_amended (some 1) ["a", "b", "c"] (fun _ => "no")).2 ⟨[], []⟩ (0, 3) rfl

/-- The shape of a *successful* worker result under the adapter wire
contract (§6): parseable JSON with a `model` object carrying a string
`name` and a `labels` object. -/
def decodeRec (s : String) : Option (String × Json × List (String × Json)) :=
  match loads s with
  | none => none
  | some j =>
    match jGet j "model" with
    | .error _ => none
    | .ok model =>
      match jGet model "name" with
      | .ok (.str name) =>
        match jGet j "labels" with
        | .ok (.obj lfs) => some (name, model, lfs)
        | _ => none
      | _ => none

/-- The model name a worker output carries, when it decodes. -/
def nameOf (result : String → String) (f : String) : Option String :=
  (decodeRec (result f)).map Prod.fst

theorem processOut_bad (db : BuildDB) (s : String) (h : loads s = none) :
    processOut db s = .ok db := by
  unfold processOut
  rw [h]

theorem processOut_decode (db : BuildDB) (s : String) (n : String) (m : Json)
    (lfs : List (String × Json)) (h : decodeRec s = some (n, m, lfs)) :
    processOut db s = .ok ⟨dictInsert db.models n m, dictUpdate db.labels lfs⟩ := by
  unfold decodeRec at h
  unfold processOut
  cases hl : loads s with
  | none =>
    simp only [hl] at h
    cases h
  | some j =>
    simp only [hl] at h ⊢
    cases hm : jGet j "model" with
    | error e =>
      simp only [hm] at h
      cases h
    | ok model =>
      simp only [hm] at h ⊢
      cases hn : jGet model "name" with
      | error e =>
        simp only [hn] at h
        cases h
      | ok nameJ =>
        simp only [hn] at h ⊢
        cases nameJ with
        | str name2 =>
          cases hlab : jGet j "labels" with
          | error e =>
            simp only [hlab] at h
            cases h
          | ok labJ =>
            simp only [hlab] at h ⊢
            cases labJ with
            | obj lfs2 =>
              simp only [Option.some.injEq, Prod.mk.injEq] at h
              obtain ⟨h1, h2, h3⟩ := h
              subst h1
              subst h2
              subst h3
              rfl
            | null => cases h
            | bool b => cases h
            | num k => cases h
            | str t => cases h
            | arr xs => cases h
        | null => cases h
        | bool b => cases h
        | num k => cases h
        | arr xs => cases h
        | obj fs2 => cases h

theorem filterNe_length (l : List String) (b : String) :
    (l.filter (fun f => f ≠ b)).length + l.count b = l.length := by
  induction l with
  | nil => simp
  | cons x t ih =>
    rw [List.filter_cons, List.count_cons, List.length_cons]
    by_cases hx : x = b
    · rw [if_neg (by simp [hx]), if_pos (by simp [hx])]
      omega
    · rw [if_pos (by simp [hx]), if_neg (by simp only [beq_iff_eq]; exact hx)]
      simp only [List.length_cons]
      omega

theorem lookupA_mem {α : Type} (l : List (String × α)) (k : String) (v : α)
    (h : lookupA l k = some v) : (k, v) ∈ l := by
  induction l with
  | nil => cases h
  | cons hd t ih =>
    obtain ⟨k0, v0⟩ := hd
    rw [lookupA] at h
    by_cases he : k0 = k
    · rw [if_pos he] at h
      injection h with h2
      subst he
      subst h2
      simp
    · rw [if_neg he] at h
      simp [ih h]

theorem processAll_spec (result : String → String) (bad : String)
    (hbad : loads (result bad) = none) :
    ∀ (fs : List String) (db : BuildDB),
    (∀ f ∈ fs, f ≠ bad → (decodeRec (result f)).isSome) →
    ((fs.filter (fun f => f ≠ bad)).map (nameOf result)).Nodup →
    (∀ f ∈ fs, f ≠ bad → ∀ n m lfs, decodeRec (result f) = some (n, m, lfs) →
      lookupA db.models n = none) →
    ∃ db2, processAll result db fs = .ok db2 ∧
      db2.models.length = db.models.length + (fs.filter (fun f => f ≠ bad)).length := by
  intro fs
  induction fs with
  | nil =>
    intro db _ _ _
    exact ⟨db, rfl, by simp⟩
  | cons f t ih =>
    intro db hdec hnd hfresh
    by_cases hf : f = bad
    · have hbadf : loads (result f) = none := by rw [hf]; exact hbad
      have hstep : processAll result db (f :: t) = processAll result db t := by
        rw [processAll, processOut_bad db _ hbadf]
      have hfilter : (f :: t).filter (fun g => g ≠ bad) = t.filter (fun g => g ≠ bad) := by
        rw [List.filter_cons, if_neg (by simp [hf])]
      rw [hstep, hfilter]
      rw [hfilter] at hnd
      exact ih db (fun g hgm hne => hdec g (by simp [hgm]) hne) hnd
        (fun g hgm hne => hfresh g (by simp [hgm]) hne)
    · have hsome := hdec f (by simp) hf
      rw [Option.isSome_iff_exists] at hsome
      obtain ⟨⟨n, m, lfs⟩, hd⟩ := hsome
      have hfilter : (f :: t).filter (fun g => g ≠ bad) = f :: t.filter (fun g => g ≠ bad) := by
        rw [List.filter_cons, if_pos (by simp [hf])]
      have hstep : processAll result db (f :: t) =
          processAll result ⟨dictInsert db.models n m, dictUpdate db.labels lfs⟩ t := by
        rw [processAll, processOut_decode db (result f) n m lfs hd]
      rw [hstep, hfilter]
      rw [hfilter] at hnd
      simp only [List.map_cons, List.nodup_cons] at hnd
      obtain ⟨hnotin, hndt⟩ := hnd
      have hnew : ∀ g ∈ t, g ≠ bad → ∀ n2 m2 lfs2, decodeRec (result g) = some (n2, m2, lfs2) →
          lookupA (dictInsert db.models n m) n2 = none := by
        intro g hg hgne n2 m2 lfs2 hd2
        have hne2 : n2 ≠ n := by
          intro he
          subst he
          apply hnotin
          have hsame : nameOf result g = nameOf result f := by
            unfold nameOf
            rw [hd, hd2]
            rfl
          rw [← hsame]
          exact List.mem_map_of_mem (nameOf result) (by
            rw [List.mem_filter]
            exact ⟨hg, by simp [hgne]⟩)
        rw [lookupA_dictInsert]
        rw [if_neg (fun he => hne2 he.symm)]
        exact hfresh g (by simp [hg]) hgne n2 m2 lfs2 hd2
      obtain ⟨db2, hpa, hlen⟩ :=
        ih ⟨dictInsert db.models n m, dictUpdate db.labels lfs⟩
          (fun g hg hne => hdec g (by simp [hg]) hne) hndt hnew
      refine ⟨db2, hpa, ?_⟩
      rw [hlen]
      have hins : (dictInsert db.models n m).length = db.models.length + 1 :=
        dictInsert_length_of_absent db.models n m
          (hfresh f (by simp) hf n m lfs hd)
      simp only [hins, List.length_cons]
      omega

/-- C2: if exactly one of the model files yields a non-decodable worker output and
all other outputs decode to records with pairwise distinct model names, the build
completes normally, the database holds one entry per good file, and the final tally
reports one fewer model than the number of files. -/
theorem c2_thm (cpuCount : Option Nat) (files : List String) (result : String → String)
    (bad : String)
    (hbad : loads (result bad) = none)
    (hdec : ∀ f ∈ files, f ≠ bad → (decodeRec (result f)).isSome)
    (hnd : ((files.filter (fun f => f ≠ bad)).map (nameOf result)).Nodup)
    (hone : files.count bad = 1) :
    ∃ tr db2, buildRun cpuCount files result = (tr, .ok (db2, db2.models.length, files.length)) ∧
      db2.models.length + 1 = files.length := by
  have hrev : ∀ f ∈ files.reverse, f ≠ bad → (decodeRec (result f)).isSome := by
    intro f hf
    exact hdec f (List.mem_reverse.mp hf)
  have hndrev : ((files.reverse.filter (fun f => f ≠ bad)).map (nameOf result)).Nodup := by
    rw [List.filter_reverse, List.map_reverse]
    exact List.nodup_reverse.mpr hnd
  have hfresh : ∀ f ∈ files.reverse, f ≠ bad → ∀ n m lfs,
      decodeRec (result f) = some (n, m, lfs) →
      lookupA (BuildDB.models ⟨[], []⟩) n = none := by
    intro _ _ _ _ _ _ _
    rfl
  obtain ⟨db2, hpa, hlen⟩ :=
    processAll_spec result bad hbad files.reverse ⟨[], []⟩ hrev hndrev hfresh
  have hdbeq := buildLoopF_db (numJobs cpuCount) result (numJobs_pos cpuCount)
      files.length files [] 0 ⟨[], []⟩ (by simp)
  have hr2 : (buildLoopF (numJobs cpuCount) result files.length files [] 0 ⟨[], []⟩).2
      = .ok db2 := by
    rw [hdbeq]
    exact hpa
  refine ⟨(buildLoopF (numJobs cpuCount) result files.length files [] 0 ⟨[], []⟩).1, db2, ?_, ?_⟩
  · simp only [buildRun]
    rw [hr2]
    rfl
  · have hflen : (files.reverse.filter (fun f => f ≠ bad)).length
        = (files.filter (fun f => f ≠ bad)).length := by
      rw [List.filter_reverse, List.length_reverse]
    have h0 : (BuildDB.models ⟨[], []⟩).length = 0 := rfl
    rw [h0, hflen] at hlen
    have hfl := filterNe_length files bad
    omega

/-- A concrete well-formed worker record for exercising the build pipeline. -/
def recJ : Json := .obj [("model", .obj [("name", .str "abies")]), ("labels", .obj [])]

/-- A concrete worker-output function: file "g" yields a good record, others junk. -/
def resW : String → String := fun f => if f = "g" then dumps recJ else "junk"

theorem resW_g_decodes : decodeRec (resW "g") = some ("abies", .obj [("name", .str "abies")], []) := by
  show decodeRec (dumps recJ) = _
  unfold decodeRec
  rw [loads_dumps recJ]
  rfl

/-- C2 witness: two files, one bad, gives a one-model database and tally 1 of 2. -/
theorem c2_witness :
    ∃ tr db2, buildRun (some 2) ["g", "b"] resW = (tr, .ok (db2, db2.models.length, 2)) ∧
      db2.models.length + 1 = 2 :=
  c2_thm (some 2) ["g", "b"] resW "b" rfl
    (by
      intro f hf hne
      have : f = "g" ∨ f = "b" := by simpa using hf
      cases this with
      | inl hg =>
        rw [hg, resW_g_decodes]
        rfl
      | inr hb => exact absurd hb hne)
    (by
      show ([nameOf resW "g"]).Nodup
      exact List.nodup_singleton _)
    (by decide)

/-- Data-model invariant for one variant record: the fields `index`,
`seasons` (a list of strings), `default_season` (a string) and `preview`
are all present. -/
def vrecWF (vrec : Json) : Bool :=
  match vrec with
  | .obj fs =>
    (lookupA fs "index").isSome &&
    (match lookupA fs "seasons" with
     | some (.arr ss) => ss.all fun s => match s with | .str _ => true | _ => false
     | _ => false) &&
    (match lookupA fs "default_season" with
     | some (.str _) => true
     | _ => false) &&
    (lookupA fs "preview").isSome
  | _ => false

/-- Data-model invariant for a model record apart from the default-variant
key: `md5`, `filepath`, `preview` present, `variants` a mapping whose
records all satisfy `vrecWF`, `default_variant` a string. -/
def mrecFieldsWF (mrec : Json) : Bool :=
  match mrec with
  | .obj fs =>
    (lookupA fs "md5").isSome &&
    (lookupA fs "filepath").isSome &&
    (lookupA fs "preview").isSome &&
    (match lookupA fs "variants" with
     | some (.obj vfs) => vfs.all fun kv => vrecWF kv.2
     | _ => false) &&
    (match lookupA fs "default_variant" with
     | some (.str _) => true
     | _ => false)
  | _ => false

/-- Whether the record's `default_variant` names a key of its `variants`
mapping. -/
def dvPresent (mrec : Json) : Bool :=
  match mrec with
  | .obj fs =>
    match lookupA fs "variants", lookupA fs "default_variant" with
    | some (.obj vfs), some (.str dv) => (lookupA vfs dv).isSome
    | _, _ => false
  | _ => false

theorem mapM_ok {α β : Type} (g : α → Except PyErr β) :
    ∀ (l : List α), (∀ a ∈ l, ∃ b, g a = .ok b) → ∃ bs, l.mapM g = Except.ok bs := by
  intro l
  induction l with
  | nil => intro _; exact ⟨[], rfl⟩
  | cons x t ih =>
    intro h
    obtain ⟨b, hb⟩ := h x (by simp)
    obtain ⟨bs, hbs⟩ := ih (fun a ha => h a (by simp [ha]))
    refine ⟨b :: bs, ?_⟩
    rw [List.mapM_cons, hb, hbs]
    rfl

theorem lookupA_isSome_of_mem {α : Type} (l : List (String × α)) (k : String) (v : α)
    (h : (k, v) ∈ l) : (lookupA l k).isSome := by
  induction l with
  | nil => cases h
  | cons hd t ih =>
    obtain ⟨k0, v0⟩ := hd
    rw [lookupA]
    by_cases he : k0 = k
    · rw [if_pos he]
      rfl
    · rw [if_neg he]
      rcases List.mem_cons.mp h with heq | hmem
      · injection heq with h1 h2
        exact absurd h1.symm he
      · exact ih hmem

theorem mkDBVariant_ok (db : ThDB) (k : String) (vrec : Json) (mp : Json)
    (h : vrecWF vrec = true) : ∃ v, mkDBVariant db (.str k) vrec mp = .ok v := by
  unfold vrecWF at h
  cases vrec with
  | obj fs =>
    simp only [Bool.and_eq_true] at h
    obtain ⟨⟨⟨_hidx, hsea⟩, hds⟩, hpv⟩ := h
    cases hs : lookupA fs "seasons" with
    | none =>
      simp only [hs] at hsea
      cases hsea
    | some sj =>
      simp only [hs] at hsea
      cases sj with
      | arr ss =>
        rw [List.all_eq_true] at hsea
        have hsOK : ∀ s ∈ ss, ∃ b, mkDBSeason db s = .ok b := by
          intro s hsm
          have := hsea s hsm
          cases s with
          | str t => exact ⟨⟨.str t, .str (getLabel db t none)⟩, rfl⟩
          | null => cases this
          | bool b => cases this
          | num n => cases this
          | arr a => cases this
          | obj o => cases this
        obtain ⟨seasons, hseasons⟩ := mapM_ok (mkDBSeason db) ss hsOK
        cases hd : lookupA fs "default_season" with
        | none =>
          simp only [hd] at hds
          cases hds
        | some dj =>
          simp only [hd] at hds
          cases dj with
          | str d =>
            rw [Option.isSome_iff_exists] at hpv
            obtain ⟨pvv, hpvv⟩ := hpv
            refine ⟨⟨.str k, .str (getLabel db k none), seasons,
              ⟨.str d, .str (getLabel db d none)⟩,
              if jEqStr pvv "" then mp else pvv⟩, ?_⟩
            unfold mkDBVariant
            simp only [getLabelKeyJ, jGet, jIter, hs, hd, hseasons, mkDBSeason]
            rw [hpvv]
          | null => cases hds
          | bool b => cases hds
          | num n => cases hds
          | arr a => cases hds
          | obj o => cases hds
      | null => cases hsea
      | bool b => cases hsea
      | num n => cases hsea
      | str t => cases hsea
      | obj o => cases hsea
  | null => cases h
  | bool b => cases h
  | num n => cases h
  | str t => cases h
  | arr a => cases h

theorem mkDBModel_dv (db : ThDB) (name : String) (fs vfs : List (String × Json)) (dv : String)
    (hm : lookupA db.models name = some (.obj fs))
    (hmd5 : (lookupA fs "md5").isSome)
    (hfp : (lookupA fs "filepath").isSome)
    (hpv : (lookupA fs "preview").isSome)
    (hv : lookupA fs "variants" = some (.obj vfs))
    (hall : ∀ kv ∈ vfs, vrecWF kv.2 = true)
    (hdv : lookupA fs "default_variant" = some (.str dv)) :
    (∀ dvrec, lookupA vfs dv = some dvrec → ∃ m, mkDBModel db name = .ok m) ∧
    (lookupA vfs dv = none → mkDBModel db name = .error .keyError) := by
  rw [Option.isSome_iff_exists] at hmd5 hfp hpv
  obtain ⟨md5v, hmd5⟩ := hmd5
  obtain ⟨fpv, hfp⟩ := hfp
  obtain ⟨pvv, hpv⟩ := hpv
  have hvmap : ∃ variants, (vfs.map fun kv => Json.str kv.1).mapM (fun v =>
      match jGetKey (.obj vfs) v with
      | .error e => Except.error e
      | .ok vrec => mkDBVariant db v vrec pvv) = Except.ok variants := by
    apply mapM_ok
    intro a ha
    rw [List.mem_map] at ha
    obtain ⟨kv, hkv, rfl⟩ := ha
    have hsome : (lookupA vfs kv.1).isSome :=
      lookupA_isSome_of_mem vfs kv.1 kv.2 (by rw [Prod.mk.eta]; exact hkv)
    rw [Option.isSome_iff_exists] at hsome
    obtain ⟨vrec, hvrec⟩ := hsome
    have hwfv : vrecWF vrec = true := hall (kv.1, vrec) (lookupA_mem vfs kv.1 vrec hvrec)
    obtain ⟨vv, hvv⟩ := mkDBVariant_ok db kv.1 vrec pvv hwfv
    refine ⟨vv, ?_⟩
    simp only [jGetKey]
    rw [hvrec]
    exact hvv
  obtain ⟨variants, hvmap⟩ := hvmap
  constructor
  · intro dvrec hdvrec
    have hwfdv : vrecWF dvrec = true := hall (dv, dvrec) (lookupA_mem vfs dv dvrec hdvrec)
    obtain ⟨dvv, hdvv⟩ := mkDBVariant_ok db dv dvrec pvv hwfdv
    refine ⟨⟨name, md5v, fpv, getLabel db name none, variants, dvv, pvv⟩, ?_⟩
    unfold mkDBModel
    simp only [jGet, jIter, hm, hmd5, hfp, hpv, hv, hdv]
    rw [hvmap]
    simp only [jGetKey, hdvrec, hdvv]
  · intro hnone
    unfold mkDBModel
    simp only [jGet, jIter, hm, hmd5, hfp, hpv, hv, hdv]
    rw [hvmap]
    simp only [jGetKey, hnone]

theorem pyTruthy_some_of_ne (s : String) (h : s ≠ "") : pyTruthy (some s) = true := by
  simp [pyTruthy, h]

/-- C10: constructing a model view is safe under the data-model invariant
(the record has `md5`, `filepath`, `preview`, a `variants` mapping whose
records carry `index`, `seasons`, `default_season` and `preview`, and a
string `default_variant`): when `default_variant` names a key of `variants`
the view construction returns normally, and when it does not, `get_model`
on that model's name surfaces a `KeyError` rather than returning a view or
`None`. -/
theorem c10_thm (db : ThDB) (name : String) (mrec : Json)
    (hm : lookupA db.models name = some mrec)
    (hwf : mrecFieldsWF mrec = true) :
    (dvPresent mrec = true → ∃ m, mkDBModel db name = .ok m) ∧
    (dvPresent mrec = false → name ≠ "" →
      get_model db none (some name) = .error .keyError) := by
  cases mrec with
  | obj fs =>
    unfold mrecFieldsWF at hwf
    simp only [Bool.and_eq_true] at hwf
    obtain ⟨⟨⟨⟨hmd5, hfp⟩, hpv⟩, hvar⟩, hdvs⟩ := hwf
    cases hv : lookupA fs "variants" with
    | none =>
      simp only [hv] at hvar
      cases hvar
    | some vj =>
      simp only [hv] at hvar
      cases vj with
      | obj vfs =>
        rw [List.all_eq_true] at hvar
        cases hd : lookupA fs "default_variant" with
        | none =>
          simp only [hd] at hdvs
          cases hdvs
        | some dj =>
          simp only [hd] at hdvs
          cases dj with
          | str dv =>
            have hsplit := mkDBModel_dv db name fs vfs dv hm hmd5 hfp hpv hv
              (fun kv hkv => hvar kv hkv) hd
            constructor
            · intro hpres
              unfold dvPresent at hpres
              simp only [hv, hd] at hpres
              rw [Option.isSome_iff_exists] at hpres
              obtain ⟨dvrec, hdvrec⟩ := hpres
              exact hsplit.1 dvrec hdvrec
            · intro habs hname
              unfold dvPresent at habs
              simp only [hv, hd] at habs
              have hnone : lookupA vfs dv = none := by
                cases hlk : lookupA vfs dv with
                | none => rfl
                | some x =>
                  rw [hlk] at habs
                  cases habs
              have herr := hsplit.2 hnone
              unfold get_model
              simp only [pyTruthy_some_of_ne name hname, if_true, hm, Option.isSome_some,
                if_true, herr]
              simp [pyTruthy, hname, herr]
          | null => cases hdvs
          | bool b => cases hdvs
          | num n => cases hdvs
          | arr a => cases hdvs
          | obj o => cases hdvs
      | null => cases hvar
      | bool b => cases hvar
      | num n => cases hvar
      | str t => cases hvar
      | arr a => cases hvar
  | null => cases hwf
  | bool b => cases hwf
  | num n => cases hwf
  | str t => cases hwf
  | arr a => cases hwf

/-- A concrete well-formed variant record. -/
def vrec0 : Json := .obj [("index", .num 0), ("seasons", .arr [.str "summer"]),
  ("default_season", .str "summer"), ("preview", .str "p.png")]

/-- A concrete well-formed model record whose default variant is present. -/
def mrec0 : Json := .obj [("md5", .str "h"), ("filepath", .str "f"),
  ("preview", .str "p"), ("variants", .obj [("v1", vrec0)]), ("default_variant", .str "v1")]

/-- A concrete model record whose default variant names no key of its variants. -/
def mrecBad : Json := .obj [("md5", .str "h"), ("filepath", .str "f"),
  ("preview", .str "p"), ("variants", .obj [("v1", vrec0)]), ("default_variant", .str "zz")]

def db10 : ThDB := ⟨[], [("m", mrec0)], "en-US"⟩

def db10b : ThDB := ⟨[], [("m", mrecBad)], "en-US"⟩

/-- C10 witness: on a well-formed record the view constructor returns
normally; with the default variant absent `get_model` raises `KeyError`. -/
theorem c10_witness :
    (∃ m, mkDBModel db10 "m" = .ok m) ∧
      get_model db10b none (some "m") = .error .keyError :=
  ⟨(c10_thm db10 "m" mrec0 rfl rfl).1 rfl,
   (c10_thm db10b "m" mrecBad rfl rfl).2 rfl (by decide)⟩
